import Mathlib

/-!
Verification of the max-tree construction and filtering engine
(`skimage/morphology/_max_tree.pyx`).

Arrays are modelled as total functions `Nat → τ`; an array write becomes a
pointwise functional update (`upd`).  The `parent` and `zpar` arrays hold
`Int` entries with the sentinel `-1` for "unset", exactly as in the source
(64-bit indices; overflow is immaterial at the sizes the preconditions
allow, so `Int` stands in for `int64`).  The float64 attribute array is
modelled by `ℚ` (exact arithmetic on the integral values area produces).
Pixel intensities are a linearly ordered scalar type `α` with an additive
zero, covering all fused dtypes of the source.  The recursive union-find
`find_root` is given explicit fuel; every theorem about the sweep holds for
any fuel, and the fuel passed (`P + 1`) dominates the union-find path
length on inputs satisfying the preconditions.
-/

namespace MaxTree

/-- Pointwise update of a function, modelling a single array write. -/
def upd {β : Type _} (f : Nat → β) (i : Nat) (v : β) : Nat → β :=
  fun j => if j = i then v else f j

/-- Product of the entries of a shape list (row-major stride computation). -/
def prodList : List Int → Int
  | [] => 1
  | s :: rest => s * prodList rest

/-- Row-major `np.unravel_index`: coordinates of a flat index. -/
def unravel : Int → List Int → List Int
  | _, [] => []
  | i, _ :: rest => (i / prodList rest) :: unravel (i % prodList rest) rest

/-- The error surfaced when offsets are inconsistent with the shape
(`np.unravel_index` raising on an out-of-range flat index). -/
inductive MTError where
  | shapeMismatch
deriving DecidableEq

/-- Checked `np.unravel_index`: fails unless the flat
index lies in `[0, P)` where `P` is the product of the shape. -/
def unravel_checked (i : Int) (shape : List Int) : Except MTError (List Int) :=
  if 0 ≤ i ∧ i < prodList shape then Except.ok (unravel i shape)
  else Except.error MTError.shapeMismatch

/-- Embedding of `offsets_to_points`: a list of raveled offsets is turned
into per-dimension coordinate deltas relative to the unraveled center
`neg_shift = -min(offsets)`.  `np.min` of an empty list raises, and each
`np.unravel_index` call raises when its argument leaves `[0, P)`. -/
def offsets_to_points (offsets : List Int) (shape : List Int) :
    Except MTError (List (List Int)) :=
  match offsets.min? with
  | none => Except.error MTError.shapeMismatch
  | some m =>
    let negShift : Int := -m
    match unravel_checked negShift shape with
    | Except.error e => Except.error e
    | Except.ok center =>
      offsets.mapM fun o =>
        match unravel_checked (o + negShift) shape with
        | Except.error e => Except.error e
        | Except.ok cur => Except.ok (List.zipWith (fun a b => a - b) cur center)

/-- Embedding of `_is_valid_coordinate`: unravel the pixel index and check
that adding the per-dimension delta stays inside the shape. -/
def _is_valid_coordinate (index : Nat) (coordinates : List Int)
    (shape : List Int) : Bool :=
  let pc := unravel (Int.ofNat index) shape
  (List.zip (List.zip pc coordinates) shape).all fun t =>
    decide (0 ≤ t.1.1 + t.1.2) && decide (t.1.1 + t.1.2 < t.2)

/-- Embedding of the recursive `find_root` with path compression.  The
extra `Nat` argument is fuel bounding the recursion depth; the sweep calls
it with fuel `P + 1`, which dominates the union-find path length under the
builder's invariants. -/
def find_root : Nat → (Nat → Int) → Nat → ((Nat → Int) × Nat)
  | 0, zpar, x => (zpar, x)
  | fuel + 1, zpar, x =>
    if zpar x = Int.ofNat x then (zpar, x)
    else
      let r := find_root fuel zpar (zpar x).toNat
      (upd r.1 x (Int.ofNat r.2), r.2)

/-- Guarded read of a parent entry at a signed raveled index: indices
outside `[0, P)` read as the sentinel `-1` (the source only performs such a
read when the mask precondition guarantees the index is in range). -/
def readAt (P : Nat) (par : Nat → Int) (i : Int) : Int :=
  if 0 ≤ i ∧ i < Int.ofNat P then par i.toNat else -1

/-- One iteration of the builder's descending sweep for pixel `p`:
introduce `p` as a singleton root, then scan its neighbors, adopting the
union-find root of every already-processed neighbor component. -/
def build_step (P : Nat) (mask : Nat → Bool) (neigh : List (Int × List Int))
    (shape : List Int) (st : (Nat → Int) × (Nat → Int)) (p : Nat) :
    (Nat → Int) × (Nat → Int) :=
  let st0 := (upd st.1 p (Int.ofNat p), upd st.2 p (Int.ofNat p))
  neigh.foldl
    (fun st1 sp =>
      let index : Int := Int.ofNat p + sp.1
      if !mask p && !_is_valid_coordinate p sp.2 shape then st1
      else if readAt P st1.1 index < 0 then st1
      else
        let fr := find_root (P + 1) st1.2 index.toNat
        if fr.2 ≠ p then (upd st1.1 fr.2 (Int.ofNat p), upd fr.1 fr.2 (Int.ofNat p))
        else (st1.1, fr.1))
    st0

/-- Embedding of `canonize`: one ascending pass replacing each parent by
the representative of its flat level. -/
def canonize {α : Type _} [DecidableEq α] (image : Nat → α) (par0 : Nat → Int)
    (sorted_indices : List Nat) : Nat → Int :=
  sorted_indices.foldl
    (fun par p =>
      let q := (par p).toNat
      if image q = image (par q).toNat then upd par p (par q) else par)
    par0

/-- The builder after the `Points` table has been computed: initialize
`parent` and `zpar` to `-1`, sweep `sorted_indices` in reverse, canonize. -/
def _build_max_tree_core {α : Type _} [DecidableEq α] (P : Nat)
    (image : Nat → α) (mask : Nat → Bool) (struct : List Int)
    (shape : List Int) (points : List (List Int)) (sorted_indices : List Nat) :
    Nat → Int :=
  let init : (Nat → Int) × (Nat → Int) := (fun _ => -1, fun _ => -1)
  let swept := (sorted_indices.reverse).foldl
    (build_step P mask (struct.zip points) shape) init
  canonize image swept.1 sorted_indices

/-- Embedding of `_build_max_tree`: compute the `Points` delta table
(propagating its failure), then run the sweep and canonization.  The
source binds a dead local `number_of_dimensions = len(strides)` from a
`strides` variable that is never defined; following the spec (§9) this
embedding reads dimensionality from `shape` and the dead local is
omitted. -/
def _build_max_tree {α : Type _} [DecidableEq α] (P : Nat) (image : Nat → α)
    (mask : Nat → Bool) (struct : List Int) (shape : List Int)
    (sorted_indices : List Nat) : Except MTError (Nat → Int) :=
  (offsets_to_points struct shape).map fun points =>
    _build_max_tree_core P image mask struct shape points sorted_indices

/-- The accumulation loop of `_compute_area` over an arbitrary traversal
list, skipping the root. -/
def compute_area_loop (parent : Nat → Int) (proot : Nat) (a0 : Nat → ℚ)
    (l : List Nat) : Nat → ℚ :=
  l.foldl
    (fun a p =>
      if p = proot then a
      else
        let q := (parent p).toNat
        upd a q (a q + a p))
    a0

/-- Embedding of `_compute_area`: area initialized to `1` everywhere, then
accumulated over `sorted_indices` in reverse, children before parents. -/
def _compute_area {α : Type _} (_image : Nat → α) (parent : Nat → Int)
    (sorted_indices : List Nat) : Nat → ℚ :=
  compute_area_loop parent (sorted_indices.headD 0) (fun _ => 1)
    sorted_indices.reverse

/-- The per-pixel loop of `_direct_filter` (root already written). -/
def direct_filter_loop {α : Type _} [DecidableEq α] (image : Nat → α)
    (parent : Nat → Int) (attr : Nat → ℚ) (t : ℚ) (proot : Nat)
    (out0 : Nat → α) (l : List Nat) : Nat → α :=
  l.foldl
    (fun output p =>
      if p = proot then output
      else
        let q := (parent p).toNat
        if image p = image q then upd output p (output q)
        else if attr p < t then upd output p (output q)
        else upd output p (image p))
    out0

/-- Embedding of `_direct_filter`: root handled first, then one ascending
pass over `sorted_indices`. -/
def _direct_filter {α : Type _} [DecidableEq α] [Zero α] (image : Nat → α)
    (output : Nat → α) (parent : Nat → Int) (sorted_indices : List Nat)
    (attr : Nat → ℚ) (t : ℚ) : Nat → α :=
  let proot := sorted_indices.headD 0
  let out1 := upd output proot (if attr proot < t then 0 else image proot)
  direct_filter_loop image parent attr t proot out1 sorted_indices

/-- The per-pixel loop of `_cut_first_filter` (root already written). -/
def cut_first_filter_loop {α : Type _} [LinearOrder α] (image : Nat → α)
    (parent : Nat → Int) (attr : Nat → ℚ) (t : ℚ) (proot : Nat)
    (out0 : Nat → α) (l : List Nat) : Nat → α :=
  l.foldl
    (fun output p =>
      if p = proot then output
      else
        let q := (parent p).toNat
        if image p = image q then upd output p (output q)
        else if attr p < t ∨ output q < image q then upd output p (output q)
        else upd output p (image p))
    out0

/-- Embedding of `_cut_first_filter`: root handled first, then one
ascending pass; a pixel is also cut when its parent was already cut
(`output[q] < image[q]`). -/
def _cut_first_filter {α : Type _} [LinearOrder α] [Zero α] (image : Nat → α)
    (output : Nat → α) (parent : Nat → Int) (sorted_indices : List Nat)
    (attr : Nat → ℚ) (t : ℚ) : Nat → α :=
  let proot := sorted_indices.headD 0
  let out1 := upd output proot (if attr proot < t then 0 else image proot)
  cut_first_filter_loop image parent attr t proot out1 sorted_indices

/-- Generic shape of the two filter loops: fold over the pixel list,
skipping the root and writing `F p` of the current output at each other
pixel.  Proof-support definition. -/
def write_fold {β : Type _} (proot : Nat) (F : Nat → (Nat → β) → β)
    (init : Nat → β) (l : List Nat) : Nat → β :=
  l.foldl (fun out p => if p = proot then out else upd out p (F p out)) init

/-- The per-pixel write value of `_direct_filter` as a function of the
current output.  Proof-support definition. -/
def F_direct {α : Type _} [DecidableEq α] (image : Nat → α) (parent : Nat → Int)
    (attr : Nat → ℚ) (t : ℚ) : Nat → (Nat → α) → α :=
  fun p out =>
    if image p = image ((parent p).toNat) then out ((parent p).toNat)
    else if attr p < t then out ((parent p).toNat)
    else image p

/-- The per-pixel write value of `_cut_first_filter` as a function of the
current output.  Proof-support definition. -/
def F_cut {α : Type _} [LinearOrder α] (image : Nat → α) (parent : Nat → Int)
    (attr : Nat → ℚ) (t : ℚ) : Nat → (Nat → α) → α :=
  fun p out =>
    if image p = image ((parent p).toNat) then out ((parent p).toNat)
    else if attr p < t ∨ out ((parent p).toNat) < image ((parent p).toNat) then
      out ((parent p).toNat)
    else image p

/-- Iterated application of the parent map (chains toward the root). -/
def parent_iter (parent : Nat → Int) : Nat → Nat → Nat
  | 0, x => x
  | k + 1, x => parent_iter parent k (parent x).toNat

/-- Whether pixel `x` lies in the subtree rooted at `p` (some parent chain
of length at most `P` from `x` reaches `p`). -/
def is_desc (P : Nat) (parent : Nat → Int) (x p : Nat) : Bool :=
  (List.range (P + 1)).any fun k => parent_iter parent k x == p

/-- Number of pixels in the subtree rooted at `p`. -/
def subtree_count (P : Nat) (parent : Nat → Int) (p : Nat) : Nat :=
  ((List.range P).filter fun x => is_desc P parent x p).length

/-- Walk the parent chain from `x` while inside the pixel list `l`, and
return the first chain element outside `l` (fuel-bounded).  Proof-support
definition for the area accumulation argument. -/
def fexit (parent : Nat → Int) (l : List Nat) : Nat → Nat → Nat
  | 0, x => x
  | k + 1, x => if x ∈ l then fexit parent l k ((parent x).toNat) else x

/-- Number of pixels whose parent-chain walk first leaves the pixel list
`l` at `y`.  Proof-support definition for the area accumulation. -/
def fexit_count (P : Nat) (parent : Nat → Int) (l : List Nat) (y : Nat) : Nat :=
  ((List.range P).filter fun x => fexit parent l P x == y).length

/-- The full mutable state visible to the filter and attribute routines:
the arrays they receive.  The loops below are the statement-by-statement
translations of the source loops on this state; they establish which
arrays each routine writes. -/
structure MTState (α : Type _) where
  image : Nat → α
  output : Nat → α
  parent : Nat → Int
  sortedIndices : List Nat
  attr : Nat → ℚ

/-- State-passing translation of `_direct_filter`: each loop iteration is
the source body, assignments landing on the `output` field. -/
def _direct_filter_state {α : Type _} [DecidableEq α] [Zero α] (t : ℚ)
    (st : MTState α) : MTState α :=
  let proot := st.sortedIndices.headD 0
  let st1 : MTState α :=
    { st with output := upd st.output proot (if st.attr proot < t then 0 else st.image proot) }
  st.sortedIndices.foldl
    (fun acc p =>
      if p = proot then acc
      else
        let q := (acc.parent p).toNat
        if acc.image p = acc.image q then { acc with output := upd acc.output p (acc.output q) }
        else if acc.attr p < t then { acc with output := upd acc.output p (acc.output q) }
        else { acc with output := upd acc.output p (acc.image p) })
    st1

/-- State-passing translation of `_cut_first_filter`. -/
def _cut_first_filter_state {α : Type _} [LinearOrder α] [Zero α] (t : ℚ)
    (st : MTState α) : MTState α :=
  let proot := st.sortedIndices.headD 0
  let st1 : MTState α :=
    { st with output := upd st.output proot (if st.attr proot < t then 0 else st.image proot) }
  st.sortedIndices.foldl
    (fun acc p =>
      if p = proot then acc
      else
        let q := (acc.parent p).toNat
        if acc.image p = acc.image q then { acc with output := upd acc.output p (acc.output q) }
        else if acc.attr p < t ∨ acc.output q < acc.image q then
          { acc with output := upd acc.output p (acc.output q) }
        else { acc with output := upd acc.output p (acc.image p) })
    st1

/-- State-passing translation of `_compute_area`: the loop threads the
incoming state together with the freshly allocated area array, assignments
landing on the area component only. -/
def _compute_area_state {α : Type _} (st : MTState α) : MTState α × (Nat → ℚ) :=
  let proot := st.sortedIndices.headD 0
  st.sortedIndices.reverse.foldl
    (fun acc p =>
      if p = proot then acc
      else
        let q := (acc.1.parent p).toNat
        (acc.1, upd acc.2 q (acc.2 q + acc.2 p)))
    (st, fun _ => 1)

/-- Modelled from the spec (§4.1 / glossary): the neighbors of pixel `x`
under the given connectivity, i.e. the raveled indices reached by offsets
whose coordinate move stays inside the shape.  Used only to state what a
flat-zone is; the source has no such function. -/
def pixel_neighbors (struct : List Int) (shape : List Int) (x : Nat) : List Nat :=
  match offsets_to_points struct shape with
  | Except.error _ => []
  | Except.ok pts =>
    (struct.zip pts).filterMap fun sp =>
      if _is_valid_coordinate x sp.2 shape && decide (0 ≤ Int.ofNat x + sp.1) then
        some (Int.ofNat x + sp.1).toNat
      else none

/-- Modelled from the spec (glossary: "Flat-zone: maximal connected set of
pixels of equal intensity"): pixels reachable from the start set through
neighbors of equal intensity, by at most the given number of expansions. -/
def flat_reach {α : Type _} [DecidableEq α] (image : Nat → α)
    (nbr : Nat → List Nat) : Nat → List Nat → List Nat
  | 0, cur => cur
  | k + 1, cur =>
    flat_reach image nbr k
      ((cur ++ cur.flatMap fun x => (nbr x).filter fun y => decide (image y = image x)).dedup)

/-- Modelled from the spec: `y` belongs to the flat-zone of `x` (they are
connected through pixels of the same intensity).  `P` expansions suffice on
a `P`-pixel image. -/
def in_flat_zone {α : Type _} [DecidableEq α] (P : Nat) (image : Nat → α)
    (struct : List Int) (shape : List Int) (x y : Nat) : Bool :=
  decide (y ∈ flat_reach image (pixel_neighbors struct shape) P [x])

/-- Concrete 1-D image `[1, 5, 1]` used to test the canonical-form claim. -/
def c1_image : Nat → Int := fun p => [1, 5, 1].getD p 0

/-- Mask for `c1_image`: both 1-D border pixels are zero. -/
def c1_mask : Nat → Bool := fun p => [false, true, false].getD p false

/-- Ascending, stable sorted indices for `c1_image`. -/
def c1_sorted : List Nat := [0, 2, 1]

/-- The parent array the builder produces on `c1_image` with offsets
`{-1, +1}` and shape `[3]`. -/
def c1_parent : Nat → Int :=
  match _build_max_tree 3 c1_image c1_mask [-1, 1] [3] c1_sorted with
  | Except.ok T => T
  | Except.error _ => fun _ => 0

/-- Invariant of the builder's sweep: pixels outside the processed set
carry the sentinel `-1` in both arrays; processed pixels have parent and
zparent entries that are processed pixels sitting no later in sorted
order.  Proof-support definition. -/
def SweepInv (s procd : List Nat) (st : (Nat → Int) × (Nat → Int)) : Prop :=
  (∀ z, z ∉ procd → st.1 z = -1 ∧ st.2 z = -1) ∧
  (∀ z ∈ procd,
    (0 ≤ st.1 z ∧ (st.1 z).toNat ∈ procd ∧
      s.indexOf ((st.1 z).toNat) ≤ s.indexOf z) ∧
    (0 ≤ st.2 z ∧ (st.2 z).toNat ∈ procd ∧
      s.indexOf ((st.2 z).toNat) ≤ s.indexOf z))

/-- Canonical-form property established by `canonize` at pixel `x`: the
parent is a valid pixel no later in sorted order and of no larger
intensity, the parent is itself canonical (a self-parent or of strictly
smaller intensity than its own parent... ), and self-parents stay
self-parents.  Proof-support definition. -/
def CanonProp {α : Type _} [LinearOrder α] (s : List Nat) (image : Nat → α)
    (T cur : Nat → Int) (x : Nat) : Prop :=
  0 ≤ cur x ∧ (cur x).toNat ∈ s ∧
  s.indexOf ((cur x).toNat) ≤ s.indexOf x ∧
  image ((cur x).toNat) ≤ image x ∧
  (cur ((cur x).toNat) = Int.ofNat ((cur x).toNat) ∨
    image ((cur ((cur x).toNat)).toNat) < image ((cur x).toNat)) ∧
  (T x = Int.ofNat x → cur x = Int.ofNat x)

/-- Concrete three-pixel strictly increasing image for the builder
witness. -/
def w1Image : Nat → Int := fun p => [1, 2, 3].getD p 0

/-- Ascending sorted indices for `w1Image`. -/
def w1Sorted : List Nat := [0, 1, 2]

/-- The parent array the builder produces on `w1Image` with offsets
`{-1, +1}` and shape `[3]`. -/
def w1T : Nat → Int :=
  match _build_max_tree 3 w1Image c1_mask [-1, 1] [3] w1Sorted with
  | Except.ok T => T
  | Except.error _ => fun _ => 0

/-- Concrete two-pixel image used to instantiate filter theorems. -/
def wImage : Nat → Int := fun p => [1, 2].getD p 0

/-- Concrete caller-allocated output array (arbitrary initial contents). -/
def wOut0 : Nat → Int := fun _ => 7

/-- Concrete canonical parent array for `wImage`: both pixels point to 0. -/
def wPar : Nat → Int := fun _ => 0

/-- Concrete ascending sorted indices for `wImage`. -/
def wSorted : List Nat := [0, 1]

/-- Concrete increasing attribute for `wImage` (areas of the two nodes). -/
def wAttr : Nat → ℚ := fun p => if p = 0 then 2 else 1

/-- Mask for the two-pixel asymmetric-connectivity scenario: only pixel 0
is a border pixel for the offset list `[-1]`. -/
def c1b_mask : Nat → Bool := fun p => [false, true].getD p false

/-- The parent array the builder produces on the two-pixel image `[1, 2]`
with the asymmetric offset list `[-1]` and shape `[2]`. -/
def c1b_parent : Nat → Int :=
  match _build_max_tree 2 wImage c1b_mask [-1] [2] wSorted with
  | Except.ok T => T
  | Except.error _ => fun _ => 0

/-! ### Basic lemmas about array writes and list positions -/

theorem upd_same {β : Type _} (f : Nat → β) (i : Nat) (v : β) : upd f i v i = v := by
  simp [upd]

theorem upd_ne {β : Type _} (f : Nat → β) {i j : Nat} (v : β) (h : j ≠ i) :
    upd f i v j = f j := by
  simp [upd, h]

lemma idx_eq_left_len {s u v : List Nat} {p : Nat} (hnd : s.Nodup)
    (hs : s = u ++ p :: v) : s.indexOf p = u.length := by
  subst hs
  have hpu : p ∉ u := by
    intro hp
    exact (List.nodup_append.1 hnd).2.2 hp (List.mem_cons_self p v)
  rw [List.indexOf_append_of_not_mem hpu, List.indexOf_cons_self]
  omega

lemma idx_right_gt {s u v : List Nat} {p : Nat} (hnd : s.Nodup)
    (hs : s = u ++ p :: v) {y : Nat} (hy : y ∈ v) :
    s.indexOf p < s.indexOf y := by
  have hpidx := idx_eq_left_len hnd hs
  subst hs
  have hyu : y ∉ u := fun hyu =>
    (List.nodup_append.1 hnd).2.2 hyu (List.mem_cons_of_mem _ hy)
  have hyp : p ≠ y := by
    intro he
    exact (List.nodup_cons.1 (List.nodup_append.1 hnd).2.1).1 (he ▸ hy)
  rw [hpidx, List.indexOf_append_of_not_mem hyu, List.indexOf_cons_ne _ hyp]
  omega

lemma idx_left_lt {s u v : List Nat} {p : Nat} (hnd : s.Nodup)
    (hs : s = u ++ p :: v) {y : Nat} (hy : y ∈ u) :
    s.indexOf y < s.indexOf p := by
  rw [idx_eq_left_len hnd hs]
  subst hs
  rw [List.indexOf_append_of_mem hy]
  exact List.indexOf_lt_length.2 hy

lemma mem_left_of_idx_lt {s u v : List Nat} {p : Nat} (hnd : s.Nodup)
    (hs : s = u ++ p :: v) {y : Nat} (hy : y ∈ s)
    (h : s.indexOf y < s.indexOf p) : y ∈ u := by
  have hy2 : y ∈ u ∨ y = p ∨ y ∈ v := by
    subst hs; simpa using hy
  rcases hy2 with h1 | h1 | h1
  · exact h1
  · subst h1; exact absurd h (lt_irrefl _)
  · exact absurd (lt_trans h (idx_right_gt hnd hs h1)) (lt_irrefl _)

lemma mem_right_of_idx_gt {s u v : List Nat} {p : Nat} (hnd : s.Nodup)
    (hs : s = u ++ p :: v) {y : Nat} (hy : y ∈ s)
    (h : s.indexOf p < s.indexOf y) : y ∈ v := by
  have hy2 : y ∈ u ∨ y = p ∨ y ∈ v := by
    subst hs; simpa using hy
  rcases hy2 with h1 | h1 | h1
  · exact absurd (lt_trans h (idx_left_lt hnd hs h1)) (lt_irrefl _)
  · subst h1; exact absurd h (lt_irrefl _)
  · exact h1

lemma idx_inj {s : List Nat} {a b : Nat} (ha : a ∈ s) (hb : b ∈ s)
    (h : s.indexOf a = s.indexOf b) : a = b :=
  (List.indexOf_inj ha hb).1 h

lemma asc_le {α : Type _} [Preorder α] {image : Nat → α} {s : List Nat}
    (Hasc : ∀ j < s.length, ∀ i < j, image (s.getD i 0) ≤ image (s.getD j 0))
    {a b : Nat} (ha : a ∈ s) (hb : b ∈ s)
    (h : s.indexOf a ≤ s.indexOf b) : image a ≤ image b := by
  rcases eq_or_lt_of_le h with he | hlt
  · rw [idx_inj ha hb he]
  · have hb2 : s.indexOf b < s.length := List.indexOf_lt_length.2 hb
    have ha2 : s.indexOf a < s.length := List.indexOf_lt_length.2 ha
    have h3 := Hasc (s.indexOf b) hb2 (s.indexOf a) hlt
    rwa [List.getD_eq_getElem _ _ ha2, List.getD_eq_getElem _ _ hb2,
      List.getElem_indexOf ha2, List.getElem_indexOf hb2] at h3

/-! ### The write-once fold: untouched cells and final-value equations -/

lemma write_fold_root {β : Type _} (proot : Nat) (F : Nat → (Nat → β) → β) :
    ∀ (l : List Nat) (init : Nat → β), write_fold proot F init l proot = init proot := by
  intro l
  induction l with
  | nil => intro init; rfl
  | cons p rest ih =>
    intro init
    show write_fold proot F (if p = proot then init else upd init p (F p init)) rest proot
        = init proot
    rw [ih]
    by_cases hp : p = proot
    · rw [if_pos hp]
    · rw [if_neg hp, upd_ne _ _ (Ne.symm hp)]

lemma write_fold_not_mem {β : Type _} (proot : Nat) (F : Nat → (Nat → β) → β) :
    ∀ (l : List Nat) (init : Nat → β) (x : Nat), x ∉ l →
      write_fold proot F init l x = init x := by
  intro l
  induction l with
  | nil => intro init x _; rfl
  | cons p rest ih =>
    intro init x hx
    have hxp : x ≠ p := fun h => hx (h ▸ List.mem_cons_self p rest)
    have hxr : x ∉ rest := fun h => hx (List.mem_cons_of_mem _ h)
    show write_fold proot F (if p = proot then init else upd init p (F p init)) rest x
        = init x
    rw [ih _ _ hxr]
    by_cases hp : p = proot
    · rw [if_pos hp]
    · rw [if_neg hp, upd_ne _ _ hxp]

lemma write_fold_char {β : Type _} {s : List Nat} (hnd : s.Nodup) {proot : Nat}
    {F : Nat → (Nat → β) → β} {init : Nat → β} {x : Nat}
    (hx : x ∈ s) (hxr : x ≠ proot)
    (Hread : ∀ out out2 : Nat → β,
      (∀ y ∈ s, s.indexOf y < s.indexOf x → out y = out2 y) → F x out = F x out2) :
    write_fold proot F init s x = F x (write_fold proot F init s) := by
  obtain ⟨u, v, hs⟩ := List.append_of_mem hx
  have hnd2 : (u ++ x :: v).Nodup := hs ▸ hnd
  have hxv : x ∉ v := (List.nodup_cons.1 (List.nodup_append.1 hnd2).2.1).1
  have hdisj := (List.nodup_append.1 hnd2).2.2
  have hfin : write_fold proot F init s =
      write_fold proot F
        (upd (write_fold proot F init u) x (F x (write_fold proot F init u))) v := by
    rw [hs, show u ++ x :: v = (u ++ [x]) ++ v by simp]
    unfold write_fold
    rw [List.foldl_append, List.foldl_append]
    simp only [List.foldl_cons, List.foldl_nil]
    rw [if_neg hxr]
  have hvalx : write_fold proot F init s x = F x (write_fold proot F init u) := by
    rw [hfin, write_fold_not_mem _ _ _ _ _ hxv, upd_same]
  rw [hvalx]
  apply Hread
  intro y hy hlt
  have hyu : y ∈ u := mem_left_of_idx_lt hnd hs hy hlt
  have hyv : y ∉ v := fun h => hdisj hyu (List.mem_cons_of_mem _ h)
  have hyx : y ≠ x := fun h => absurd (h ▸ hlt) (lt_irrefl _)
  have h2 : write_fold proot F init s y = write_fold proot F init u y := by
    rw [hfin, write_fold_not_mem _ _ _ _ _ hyv, upd_ne _ _ hyx]
  exact h2.symm

/-- Induction along the tree order: every pixel satisfies `Φ` provided the
root does and `Φ` propagates from parents (which sit strictly earlier in
`sorted_indices`) to children. -/
lemma tree_induction {s : List Nat} {par : Nat → Int}
    (Htree : ∀ p ∈ s, p ≠ s.headD 0 → (par p).toNat ∈ s ∧
      s.indexOf ((par p).toNat) < s.indexOf p)
    (Φ : Nat → Prop) (Hroot : ∀ x ∈ s, x = s.headD 0 → Φ x)
    (Hstep : ∀ x ∈ s, x ≠ s.headD 0 → Φ ((par x).toNat) → Φ x) :
    ∀ x ∈ s, Φ x := by
  have main : ∀ n, ∀ x ∈ s, s.indexOf x = n → Φ x := by
    intro n
    induction n using Nat.strong_induction_on with
    | _ n IH =>
      intro x hx hn
      by_cases hxr : x = s.headD 0
      · exact Hroot x hx hxr
      · obtain ⟨hq, hlt⟩ := Htree x hx hxr
        exact Hstep x hx hxr (IH _ (hn ▸ hlt) _ hq rfl)
  intro x hx
  exact main _ x hx rfl

/-! ### The filter loops are write-folds -/

lemma direct_filter_loop_eq {α : Type _} [DecidableEq α] (image : Nat → α)
    (par : Nat → Int) (attr : Nat → ℚ) (t : ℚ) (proot : Nat)
    (out0 : Nat → α) (l : List Nat) :
    direct_filter_loop image par attr t proot out0 l =
      write_fold proot (F_direct image par attr t) out0 l := by
  unfold direct_filter_loop write_fold
  congr 1
  funext out p
  by_cases h1 : p = proot
  · rw [if_pos h1, if_pos h1]
  · rw [if_neg h1, if_neg h1]
    dsimp only [F_direct]
    by_cases h2 : image p = image ((par p).toNat)
    · rw [if_pos h2, if_pos h2]
    · rw [if_neg h2, if_neg h2]
      by_cases h3 : attr p < t
      · rw [if_pos h3, if_pos h3]
      · rw [if_neg h3, if_neg h3]

lemma cut_first_filter_loop_eq {α : Type _} [LinearOrder α] (image : Nat → α)
    (par : Nat → Int) (attr : Nat → ℚ) (t : ℚ) (proot : Nat)
    (out0 : Nat → α) (l : List Nat) :
    cut_first_filter_loop image par attr t proot out0 l =
      write_fold proot (F_cut image par attr t) out0 l := by
  unfold cut_first_filter_loop write_fold
  congr 1
  funext out p
  by_cases h1 : p = proot
  · rw [if_pos h1, if_pos h1]
  · rw [if_neg h1, if_neg h1]
    dsimp only [F_cut]
    by_cases h2 : image p = image ((par p).toNat)
    · rw [if_pos h2, if_pos h2]
    · rw [if_neg h2, if_neg h2]
      by_cases h3 : attr p < t ∨ out ((par p).toNat) < image ((par p).toNat)
      · rw [if_pos h3, if_pos h3]
      · rw [if_neg h3, if_neg h3]

lemma direct_filter_as_fold {α : Type _} [DecidableEq α] [Zero α]
    (image out0 : Nat → α) (par : Nat → Int) (s : List Nat) (attr : Nat → ℚ)
    (t : ℚ) :
    _direct_filter image out0 par s attr t =
      write_fold (s.headD 0) (F_direct image par attr t)
        (upd out0 (s.headD 0)
          (if attr (s.headD 0) < t then 0 else image (s.headD 0))) s := by
  unfold _direct_filter
  rw [direct_filter_loop_eq]

lemma cut_first_filter_as_fold {α : Type _} [LinearOrder α] [Zero α]
    (image out0 : Nat → α) (par : Nat → Int) (s : List Nat) (attr : Nat → ℚ)
    (t : ℚ) :
    _cut_first_filter image out0 par s attr t =
      write_fold (s.headD 0) (F_cut image par attr t)
        (upd out0 (s.headD 0)
          (if attr (s.headD 0) < t then 0 else image (s.headD 0))) s := by
  unfold _cut_first_filter
  rw [cut_first_filter_loop_eq]

/-! ### Final-state equations for the two filters -/

lemma direct_filter_root {α : Type _} [DecidableEq α] [Zero α]
    (image out0 : Nat → α) (par : Nat → Int) (s : List Nat) (attr : Nat → ℚ)
    (t : ℚ) :
    _direct_filter image out0 par s attr t (s.headD 0) =
      if attr (s.headD 0) < t then 0 else image (s.headD 0) := by
  rw [direct_filter_as_fold, write_fold_root, upd_same]

lemma cut_first_filter_root {α : Type _} [LinearOrder α] [Zero α]
    (image out0 : Nat → α) (par : Nat → Int) (s : List Nat) (attr : Nat → ℚ)
    (t : ℚ) :
    _cut_first_filter image out0 par s attr t (s.headD 0) =
      if attr (s.headD 0) < t then 0 else image (s.headD 0) := by
  rw [cut_first_filter_as_fold, write_fold_root, upd_same]

lemma direct_filter_eq_at {α : Type _} [DecidableEq α] [Zero α] {P : Nat}
    {s : List Nat} (image out0 : Nat → α) (par : Nat → Int) (attr : Nat → ℚ)
    (t : ℚ) (Hperm : s.Perm (List.range P))
    (Htree : ∀ p ∈ s, p ≠ s.headD 0 → 0 ≤ par p ∧ (par p).toNat ∈ s ∧
      s.indexOf ((par p).toNat) < s.indexOf p)
    {p : Nat} (hp : p ∈ s) (hpr : p ≠ s.headD 0) :
    _direct_filter image out0 par s attr t p =
      F_direct image par attr t p (_direct_filter image out0 par s attr t) := by
  have hnd : s.Nodup := Hperm.symm.nodup (List.nodup_range P)
  rw [direct_filter_as_fold]
  apply write_fold_char hnd hp hpr
  intro out out2 hag
  obtain ⟨-, hq, hlt⟩ := Htree p hp hpr
  dsimp only [F_direct]
  rw [hag _ hq hlt]

lemma cut_first_filter_eq_at {α : Type _} [LinearOrder α] [Zero α] {P : Nat}
    {s : List Nat} (image out0 : Nat → α) (par : Nat → Int) (attr : Nat → ℚ)
    (t : ℚ) (Hperm : s.Perm (List.range P))
    (Htree : ∀ p ∈ s, p ≠ s.headD 0 → 0 ≤ par p ∧ (par p).toNat ∈ s ∧
      s.indexOf ((par p).toNat) < s.indexOf p)
    {p : Nat} (hp : p ∈ s) (hpr : p ≠ s.headD 0) :
    _cut_first_filter image out0 par s attr t p =
      F_cut image par attr t p (_cut_first_filter image out0 par s attr t) := by
  have hnd : s.Nodup := Hperm.symm.nodup (List.nodup_range P)
  rw [cut_first_filter_as_fold]
  apply write_fold_char hnd hp hpr
  intro out out2 hag
  obtain ⟨-, hq, hlt⟩ := Htree p hp hpr
  dsimp only [F_cut]
  rw [hag _ hq hlt]

/-! ### Parent chains -/

lemma parent_chain_facts {α : Type _} [Preorder α] {image : Nat → α}
    {s : List Nat} {par : Nat → Int}
    (Hroot : par (s.headD 0) = Int.ofNat (s.headD 0))
    (Hmem : ∀ p ∈ s, p ≠ s.headD 0 → (par p).toNat ∈ s)
    (Hmono : ∀ p ∈ s, p ≠ s.headD 0 → image ((par p).toNat) ≤ image p) :
    ∀ k, ∀ x ∈ s, parent_iter par k x ∈ s ∧
      image (parent_iter par k x) ≤ image x := by
  intro k
  induction k with
  | zero => intro x hx; exact ⟨hx, le_refl _⟩
  | succ k IH =>
    intro x hx
    by_cases hxr : x = s.headD 0
    · have hfix : (par x).toNat = x := by rw [hxr, Hroot]; rfl
      show parent_iter par k ((par x).toNat) ∈ s ∧
        image (parent_iter par k ((par x).toNat)) ≤ image x
      rw [hfix]
      exact IH x hx
    · have hq : (par x).toNat ∈ s := Hmem x hx hxr
      obtain ⟨h1, h2⟩ := IH _ hq
      exact ⟨h1, le_trans h2 (Hmono x hx hxr)⟩

/-- Once a pixel `q` is cut (`output q < image q`), every pixel whose
parent chain passes through `q` receives exactly `output q`, hence never a
value above it. -/
lemma cut_first_prune_propagates {α : Type _} [LinearOrder α] [Zero α] {P : Nat}
    {s : List Nat} (image out0 : Nat → α) (par : Nat → Int) (attr : Nat → ℚ)
    (t : ℚ) (Hperm : s.Perm (List.range P))
    (Htree : ∀ p ∈ s, p ≠ s.headD 0 → 0 ≤ par p ∧ (par p).toNat ∈ s ∧
      s.indexOf ((par p).toNat) < s.indexOf p)
    (Hroot : par (s.headD 0) = Int.ofNat (s.headD 0))
    (Hmono : ∀ p ∈ s, p ≠ s.headD 0 → image ((par p).toNat) ≤ image p)
    {q : Nat} (_hq : q ∈ s)
    (hcut : _cut_first_filter image out0 par s attr t q <
      image q) :
    ∀ k, 0 < k → ∀ d ∈ s, parent_iter par k d = q →
      _cut_first_filter image out0 par s attr t d ≤
        _cut_first_filter image out0 par s attr t q := by
  have Hmem : ∀ p ∈ s, p ≠ s.headD 0 → (par p).toNat ∈ s := by
    intro p hp hpr; exact (Htree p hp hpr).2.1
  intro k
  induction k with
  | zero => intro h; exact absurd h (lt_irrefl 0)
  | succ k IH =>
    intro _ d hd hiter
    by_cases hdr : d = s.headD 0
    · -- the root is its own parent: the chain stays at d, so q = d
      have hfix : (par d).toNat = d := by rw [hdr, Hroot]; rfl
      have hiter2 : parent_iter par k d = q := by
        have : parent_iter par (k + 1) d = parent_iter par k d := by
          show parent_iter par k ((par d).toNat) = parent_iter par k d
          rw [hfix]
        rw [← this]; exact hiter
      rcases Nat.eq_zero_or_pos k with hk | hk
      · subst hk
        have : d = q := hiter2
        rw [this]
      · exact IH hk d hd hiter2
    · -- non-root step: analyze the write at d
      have hr : (par d).toNat ∈ s := Hmem d hd hdr
      have heq := cut_first_filter_eq_at image out0 par attr t Hperm Htree hd hdr
      have hiter2 : parent_iter par k ((par d).toNat) = q := hiter
      have hrle : _cut_first_filter image out0 par s attr t ((par d).toNat) ≤
          _cut_first_filter image out0 par s attr t q := by
        rcases Nat.eq_zero_or_pos k with hk | hk
        · subst hk
          have : (par d).toNat = q := hiter2
          rw [this]
        · exact IH hk _ hr hiter2
      -- the parent is itself below its level, so d cannot be reconstructed
      have hrcut : _cut_first_filter image out0 par s attr t ((par d).toNat) <
          image ((par d).toNat) := by
        have h1 : image q ≤ image ((par d).toNat) := by
          have h2 := (parent_chain_facts Hroot Hmem Hmono k _ hr).2
          rwa [hiter2] at h2
        calc _cut_first_filter image out0 par s attr t ((par d).toNat)
            ≤ _cut_first_filter image out0 par s attr t q := hrle
          _ < image q := hcut
          _ ≤ image ((par d).toNat) := h1
      rw [heq]
      dsimp only [F_cut]
      by_cases h2 : image d = image ((par d).toNat)
      · rw [if_pos h2]; exact hrle
      · rw [if_neg h2, if_pos (Or.inr hrcut)]
        exact hrle

/-! ### Claims C2 and C3: the per-pixel filter rules -/

/-- Claim C2: `_direct_filter` writes the root first (`0` when the root
attribute is below the threshold, otherwise the root intensity), and every
non-root pixel `p` with `q = parent p` receives `output q` when
`image p = image q` (non-canonical) or when `attribute p < threshold`, and
`image p` otherwise. -/
theorem C2_direct_filter_rule {α : Type _} [DecidableEq α] [Zero α] (P : Nat)
    (image out0 : Nat → α) (par : Nat → Int) (s : List Nat) (attr : Nat → ℚ)
    (t : ℚ) (_Hpos : 0 < P) (Hperm : s.Perm (List.range P))
    (Htree : ∀ p ∈ s, p ≠ s.headD 0 → 0 ≤ par p ∧ (par p).toNat ∈ s ∧
      s.indexOf ((par p).toNat) < s.indexOf p) :
    (_direct_filter image out0 par s attr t (s.headD 0) =
      if attr (s.headD 0) < t then 0 else image (s.headD 0)) ∧
    ∀ p < P, p ≠ s.headD 0 →
      _direct_filter image out0 par s attr t p =
        (if image p = image ((par p).toNat)
         then _direct_filter image out0 par s attr t ((par p).toNat)
         else if attr p < t
         then _direct_filter image out0 par s attr t ((par p).toNat)
         else image p) := by
  refine ⟨direct_filter_root image out0 par s attr t, ?_⟩
  intro p hp hpr
  have hps : p ∈ s := Hperm.mem_iff.2 (List.mem_range.2 hp)
  exact direct_filter_eq_at image out0 par attr t Hperm Htree hps hpr

/-- Witness for C2 on a concrete two-pixel input. -/
theorem C2_witness :
    (_direct_filter wImage wOut0 wPar wSorted wAttr 1 (wSorted.headD 0) =
      if wAttr (wSorted.headD 0) < 1 then 0 else wImage (wSorted.headD 0)) ∧
    ∀ p < 2, p ≠ wSorted.headD 0 →
      _direct_filter wImage wOut0 wPar wSorted wAttr 1 p =
        (if wImage p = wImage ((wPar p).toNat)
         then _direct_filter wImage wOut0 wPar wSorted wAttr 1 ((wPar p).toNat)
         else if wAttr p < 1
         then _direct_filter wImage wOut0 wPar wSorted wAttr 1 ((wPar p).toNat)
         else wImage p) :=
  C2_direct_filter_rule 2 wImage wOut0 wPar wSorted wAttr 1 (by decide)
    (by decide) (by decide)

/-- Claim C3: `_cut_first_filter` writes the root first, every non-root
pixel follows the cut-first rule (`output q` when non-canonical, when its
attribute is below the threshold, or when the parent was already cut, and
`image p` otherwise), and once a pixel `q` has been pruned
(`output q < image q`) every pixel whose parent chain passes through `q`
is written a value no larger than `output q`. -/
theorem C3_cut_first_filter_rule {α : Type _} [LinearOrder α] [Zero α] (P : Nat)
    (image out0 : Nat → α) (par : Nat → Int) (s : List Nat) (attr : Nat → ℚ)
    (t : ℚ) (_Hpos : 0 < P) (Hperm : s.Perm (List.range P))
    (Htree : ∀ p ∈ s, p ≠ s.headD 0 → 0 ≤ par p ∧ (par p).toNat ∈ s ∧
      s.indexOf ((par p).toNat) < s.indexOf p)
    (Hroot : par (s.headD 0) = Int.ofNat (s.headD 0))
    (Hmono : ∀ p ∈ s, p ≠ s.headD 0 → image ((par p).toNat) ≤ image p) :
    (_cut_first_filter image out0 par s attr t (s.headD 0) =
      if attr (s.headD 0) < t then 0 else image (s.headD 0)) ∧
    (∀ p < P, p ≠ s.headD 0 →
      _cut_first_filter image out0 par s attr t p =
        (if image p = image ((par p).toNat)
         then _cut_first_filter image out0 par s attr t ((par p).toNat)
         else if attr p < t ∨
           _cut_first_filter image out0 par s attr t ((par p).toNat) <
             image ((par p).toNat)
         then _cut_first_filter image out0 par s attr t ((par p).toNat)
         else image p)) ∧
    ∀ q < P, _cut_first_filter image out0 par s attr t q < image q →
      ∀ d < P, ∀ k, 0 < k → parent_iter par k d = q →
        _cut_first_filter image out0 par s attr t d ≤
          _cut_first_filter image out0 par s attr t q := by
  refine ⟨cut_first_filter_root image out0 par s attr t, ?_, ?_⟩
  · intro p hp hpr
    have hps : p ∈ s := Hperm.mem_iff.2 (List.mem_range.2 hp)
    exact cut_first_filter_eq_at image out0 par attr t Hperm Htree hps hpr
  · intro q hq hcut d hd k hk hiter
    have hqs : q ∈ s := Hperm.mem_iff.2 (List.mem_range.2 hq)
    have hds : d ∈ s := Hperm.mem_iff.2 (List.mem_range.2 hd)
    exact cut_first_prune_propagates image out0 par attr t Hperm Htree Hroot
      Hmono hqs hcut k hk d hds hiter

/-- Witness for C3 on a concrete two-pixel input. -/
theorem C3_witness :
    (_cut_first_filter wImage wOut0 wPar wSorted wAttr 1 (wSorted.headD 0) =
      if wAttr (wSorted.headD 0) < 1 then 0 else wImage (wSorted.headD 0)) ∧
    (∀ p < 2, p ≠ wSorted.headD 0 →
      _cut_first_filter wImage wOut0 wPar wSorted wAttr 1 p =
        (if wImage p = wImage ((wPar p).toNat)
         then _cut_first_filter wImage wOut0 wPar wSorted wAttr 1 ((wPar p).toNat)
         else if wAttr p < 1 ∨
           _cut_first_filter wImage wOut0 wPar wSorted wAttr 1 ((wPar p).toNat) <
             wImage ((wPar p).toNat)
         then _cut_first_filter wImage wOut0 wPar wSorted wAttr 1 ((wPar p).toNat)
         else wImage p)) ∧
    ∀ q < 2, _cut_first_filter wImage wOut0 wPar wSorted wAttr 1 q < wImage q →
      ∀ d < 2, ∀ k, 0 < k → parent_iter wPar k d = q →
        _cut_first_filter wImage wOut0 wPar wSorted wAttr 1 d ≤
          _cut_first_filter wImage wOut0 wPar wSorted wAttr 1 q :=
  C3_cut_first_filter_rule 2 wImage wOut0 wPar wSorted wAttr 1 (by decide)
    (by decide) (by decide) (by decide) (by decide)

/-! ### Claim C9: output values come from the input or are zero -/

lemma head_mem_of_pos {s : List Nat} {P : Nat} (Hperm : s.Perm (List.range P))
    (hP : 0 < P) : s.headD 0 ∈ s := by
  cases s with
  | nil =>
    have h := Hperm.length_eq
    simp only [List.length_nil, List.length_range] at h
    omega
  | cons a l => exact List.mem_cons_self a l

/-- Claim C9: for every scalar type with a linear order and an additive
zero (all supported dtypes), both filters, which return outputs of the same
type as the input, write at every pixel either the zero of that type or the
input value of some pixel; hence outputs stay in the input range. -/
theorem C9_output_values {α : Type _} [LinearOrder α] [Zero α] (P : Nat)
    (image out0 : Nat → α) (par : Nat → Int) (s : List Nat) (attr : Nat → ℚ)
    (t : ℚ) (_Hpos : 0 < P) (Hperm : s.Perm (List.range P))
    (Htree : ∀ p ∈ s, p ≠ s.headD 0 → 0 ≤ par p ∧ (par p).toNat ∈ s ∧
      s.indexOf ((par p).toNat) < s.indexOf p) :
    ∀ p < P,
      (_direct_filter image out0 par s attr t p = 0 ∨
        ∃ q < P, _direct_filter image out0 par s attr t p = image q) ∧
      (_cut_first_filter image out0 par s attr t p = 0 ∨
        ∃ q < P, _cut_first_filter image out0 par s attr t p = image q) := by
  have Htree2 : ∀ p ∈ s, p ≠ s.headD 0 → (par p).toNat ∈ s ∧
      s.indexOf ((par p).toNat) < s.indexOf p := by
    intro p hp hpr; exact (Htree p hp hpr).2
  have hmem : ∀ x, x ∈ s → x < P := by
    intro x hx; exact List.mem_range.1 (Hperm.mem_iff.1 hx)
  have main := tree_induction Htree2 (fun x =>
      (_direct_filter image out0 par s attr t x = 0 ∨
        ∃ q < P, _direct_filter image out0 par s attr t x = image q) ∧
      (_cut_first_filter image out0 par s attr t x = 0 ∨
        ∃ q < P, _cut_first_filter image out0 par s attr t x = image q))
    (by
      intro x hx hxr
      subst hxr
      rw [direct_filter_root, cut_first_filter_root]
      by_cases hb : attr (s.headD 0) < t
      · rw [if_pos hb]; exact ⟨Or.inl rfl, Or.inl rfl⟩
      · rw [if_neg hb]
        exact ⟨Or.inr ⟨s.headD 0, hmem _ hx, rfl⟩,
          Or.inr ⟨s.headD 0, hmem _ hx, rfl⟩⟩)
    (by
      intro x hx hxr IH
      rw [direct_filter_eq_at image out0 par attr t Hperm Htree hx hxr,
        cut_first_filter_eq_at image out0 par attr t Hperm Htree hx hxr]
      dsimp only [F_direct, F_cut]
      constructor
      · by_cases h2 : image x = image ((par x).toNat)
        · rw [if_pos h2]; exact IH.1
        · rw [if_neg h2]
          by_cases h3 : attr x < t
          · rw [if_pos h3]; exact IH.1
          · rw [if_neg h3]; exact Or.inr ⟨x, hmem _ hx, rfl⟩
      · by_cases h2 : image x = image ((par x).toNat)
        · rw [if_pos h2]; exact IH.2
        · rw [if_neg h2]
          by_cases h3 : attr x < t ∨
              _cut_first_filter image out0 par s attr t ((par x).toNat) <
                image ((par x).toNat)
          · rw [if_pos h3]; exact IH.2
          · rw [if_neg h3]; exact Or.inr ⟨x, hmem _ hx, rfl⟩)
  intro p hp
  exact main p (Hperm.mem_iff.2 (List.mem_range.2 hp))

/-- Witness for C9 on a concrete two-pixel input, at pixels 0 and 1. -/
theorem C9_witness :
    ((_direct_filter wImage wOut0 wPar wSorted wAttr 1 0 = 0 ∨
        ∃ q < 2, _direct_filter wImage wOut0 wPar wSorted wAttr 1 0 = wImage q) ∧
      (_cut_first_filter wImage wOut0 wPar wSorted wAttr 1 0 = 0 ∨
        ∃ q < 2, _cut_first_filter wImage wOut0 wPar wSorted wAttr 1 0 = wImage q)) ∧
    ((_direct_filter wImage wOut0 wPar wSorted wAttr 1 1 = 0 ∨
        ∃ q < 2, _direct_filter wImage wOut0 wPar wSorted wAttr 1 1 = wImage q) ∧
      (_cut_first_filter wImage wOut0 wPar wSorted wAttr 1 1 = 0 ∨
        ∃ q < 2, _cut_first_filter wImage wOut0 wPar wSorted wAttr 1 1 = wImage q)) :=
  ⟨C9_output_values 2 wImage wOut0 wPar wSorted wAttr 1 (by decide) (by decide)
      (by decide) 0 (by decide),
    C9_output_values 2 wImage wOut0 wPar wSorted wAttr 1 (by decide) (by decide)
      (by decide) 1 (by decide)⟩

/-! ### Claim C5: threshold zero is the identity -/

lemma compute_area_loop_ge_one (par : Nat → Int) (proot : Nat) :
    ∀ (l : List Nat) (a0 : Nat → ℚ), (∀ y, 1 ≤ a0 y) →
      ∀ y, 1 ≤ compute_area_loop par proot a0 l y := by
  intro l
  induction l with
  | nil => intro a0 h y; exact h y
  | cons p rest ih =>
    intro a0 h y
    show 1 ≤ compute_area_loop par proot
      (if p = proot then a0 else upd a0 ((par p).toNat) (a0 ((par p).toNat) + a0 p))
      rest y
    apply ih
    intro z
    by_cases hp : p = proot
    · rw [if_pos hp]; exact h z
    · rw [if_neg hp]
      by_cases hz : z = (par p).toNat
      · rw [hz, upd_same]
        have h1 := h ((par p).toNat)
        have h2 := h p
        linarith
      · rw [upd_ne _ _ hz]; exact h z

lemma compute_area_ge_one {α : Type _} (image : Nat → α) (par : Nat → Int)
    (s : List Nat) : ∀ y, 1 ≤ _compute_area image par s y := by
  intro y
  exact compute_area_loop_ge_one par (s.headD 0) s.reverse (fun _ => 1)
    (fun _ => le_refl 1) y

/-- Claim C5: with threshold `0` and the area attribute produced by
`_compute_area`, both filters reproduce the input image at every pixel, for
every image and canonical max-tree over it. -/
theorem C5_threshold_zero_identity {α : Type _} [LinearOrder α] [Zero α]
    (P : Nat) (image out0 : Nat → α) (par : Nat → Int) (s : List Nat)
    (_Hpos : 0 < P) (Hperm : s.Perm (List.range P))
    (Htree : ∀ p ∈ s, p ≠ s.headD 0 → 0 ≤ par p ∧ (par p).toNat ∈ s ∧
      s.indexOf ((par p).toNat) < s.indexOf p) :
    ∀ p < P,
      _direct_filter image out0 par s (_compute_area image par s) 0 p = image p ∧
      _cut_first_filter image out0 par s (_compute_area image par s) 0 p = image p := by
  have Htree2 : ∀ p ∈ s, p ≠ s.headD 0 → (par p).toNat ∈ s ∧
      s.indexOf ((par p).toNat) < s.indexOf p := by
    intro p hp hpr; exact (Htree p hp hpr).2
  have hnotlt : ∀ y, ¬ _compute_area image par s y < 0 := by
    intro y
    have := compute_area_ge_one image par s y
    intro h; linarith
  have main := tree_induction Htree2 (fun x =>
      _direct_filter image out0 par s (_compute_area image par s) 0 x = image x ∧
      _cut_first_filter image out0 par s (_compute_area image par s) 0 x = image x)
    (by
      intro x hx hxr
      subst hxr
      rw [direct_filter_root, cut_first_filter_root, if_neg (hnotlt _)]
      exact ⟨rfl, rfl⟩)
    (by
      intro x hx hxr IH
      rw [direct_filter_eq_at image out0 par (_compute_area image par s) 0
          Hperm Htree hx hxr,
        cut_first_filter_eq_at image out0 par (_compute_area image par s) 0
          Hperm Htree hx hxr]
      dsimp only [F_direct, F_cut]
      by_cases h2 : image x = image ((par x).toNat)
      · rw [if_pos h2, if_pos h2, IH.1, IH.2, h2]
        exact ⟨rfl, rfl⟩
      · rw [if_neg h2, if_neg h2, if_neg (hnotlt x)]
        have hc : ¬ (_compute_area image par s x < 0 ∨
            _cut_first_filter image out0 par s (_compute_area image par s) 0
                ((par x).toNat) <
              image ((par x).toNat)) := by
          rw [IH.2]
          intro h
          rcases h with h | h
          · exact hnotlt x h
          · exact absurd h (lt_irrefl _)
        rw [if_neg hc]
        exact ⟨rfl, rfl⟩)
  intro p hp
  exact main p (Hperm.mem_iff.2 (List.mem_range.2 hp))

/-- Witness for C5 on a concrete two-pixel input, at pixels 0 and 1. -/
theorem C5_witness :
    (_direct_filter wImage wOut0 wPar wSorted
        (_compute_area wImage wPar wSorted) 0 0 = wImage 0 ∧
      _cut_first_filter wImage wOut0 wPar wSorted
        (_compute_area wImage wPar wSorted) 0 0 = wImage 0) ∧
    (_direct_filter wImage wOut0 wPar wSorted
        (_compute_area wImage wPar wSorted) 0 1 = wImage 1 ∧
      _cut_first_filter wImage wOut0 wPar wSorted
        (_compute_area wImage wPar wSorted) 0 1 = wImage 1) :=
  ⟨C5_threshold_zero_identity 2 wImage wOut0 wPar wSorted (by decide) (by decide)
      (by decide) 0 (by decide),
    C5_threshold_zero_identity 2 wImage wOut0 wPar wSorted (by decide) (by decide)
      (by decide) 1 (by decide)⟩

/-! ### Claim C7: cut-first never exceeds direct for increasing attributes -/

/-- For an increasing attribute the two filters coincide (helper for C7);
additionally, any pixel whose attribute clears the threshold keeps its own
intensity. -/
lemma cut_first_eq_direct_of_incr {α : Type _} [LinearOrder α] [Zero α]
    {P : Nat} (image out0 : Nat → α) (par : Nat → Int) (s : List Nat)
    (attr : Nat → ℚ) (t : ℚ) (Hperm : s.Perm (List.range P))
    (Htree : ∀ p ∈ s, p ≠ s.headD 0 → 0 ≤ par p ∧ (par p).toNat ∈ s ∧
      s.indexOf ((par p).toNat) < s.indexOf p)
    (Hincr : ∀ p ∈ s, p ≠ s.headD 0 → attr p ≤ attr ((par p).toNat)) :
    ∀ x ∈ s,
      _cut_first_filter image out0 par s attr t x =
        _direct_filter image out0 par s attr t x ∧
      (t ≤ attr x → _direct_filter image out0 par s attr t x = image x) := by
  have Htree2 : ∀ p ∈ s, p ≠ s.headD 0 → (par p).toNat ∈ s ∧
      s.indexOf ((par p).toNat) < s.indexOf p := by
    intro p hp hpr; exact (Htree p hp hpr).2
  exact tree_induction Htree2 _
    (by
      intro x hx hxr
      subst hxr
      rw [direct_filter_root, cut_first_filter_root]
      refine ⟨rfl, ?_⟩
      intro ht
      rw [if_neg (not_lt.2 ht)])
    (by
      intro x hx hxr IH
      have heqd := direct_filter_eq_at image out0 par attr t Hperm Htree hx hxr
      have heqc := cut_first_filter_eq_at image out0 par attr t Hperm Htree hx hxr
      rw [heqd, heqc]
      dsimp only [F_direct, F_cut]
      by_cases h2 : image x = image ((par x).toNat)
      · rw [if_pos h2, if_pos h2, IH.1]
        refine ⟨rfl, ?_⟩
        intro ht
        have hq : t ≤ attr ((par x).toNat) := le_trans ht (Hincr x hx hxr)
        rw [IH.2 hq, h2]
      · rw [if_neg h2, if_neg h2]
        by_cases h3 : attr x < t
        · rw [if_pos h3, if_pos (Or.inl h3), IH.1]
          exact ⟨rfl, fun ht => absurd h3 (not_lt.2 ht)⟩
        · have ht : t ≤ attr x := not_lt.1 h3
          have hq : t ≤ attr ((par x).toNat) := le_trans ht (Hincr x hx hxr)
          have hc : ¬ (attr x < t ∨
              _cut_first_filter image out0 par s attr t ((par x).toNat) <
                image ((par x).toNat)) := by
            intro h
            rcases h with h | h
            · exact h3 h
            · rw [IH.1, IH.2 hq] at h
              exact absurd h (lt_irrefl _)
          rw [if_neg h3, if_neg hc]
          exact ⟨rfl, fun _ => rfl⟩)

/-- Claim C7: when the attribute is increasing along root-to-leaf paths,
the cut-first output is pointwise at most the direct output. -/
theorem C7_cut_first_dominance {α : Type _} [LinearOrder α] [Zero α] (P : Nat)
    (image out0 : Nat → α) (par : Nat → Int) (s : List Nat) (attr : Nat → ℚ)
    (t : ℚ) (_Hpos : 0 < P) (Hperm : s.Perm (List.range P))
    (Htree : ∀ p ∈ s, p ≠ s.headD 0 → 0 ≤ par p ∧ (par p).toNat ∈ s ∧
      s.indexOf ((par p).toNat) < s.indexOf p)
    (Hincr : ∀ p ∈ s, p ≠ s.headD 0 → attr p ≤ attr ((par p).toNat)) :
    ∀ p < P,
      _cut_first_filter image out0 par s attr t p ≤
        _direct_filter image out0 par s attr t p := by
  intro p hp
  have hps : p ∈ s := Hperm.mem_iff.2 (List.mem_range.2 hp)
  exact le_of_eq
    (cut_first_eq_direct_of_incr image out0 par s attr t Hperm Htree Hincr p hps).1

/-- Witness for C7 on a concrete two-pixel input, at pixels 0 and 1. -/
theorem C7_witness :
    _cut_first_filter wImage wOut0 wPar wSorted wAttr 1 0 ≤
      _direct_filter wImage wOut0 wPar wSorted wAttr 1 0 ∧
    _cut_first_filter wImage wOut0 wPar wSorted wAttr 1 1 ≤
      _direct_filter wImage wOut0 wPar wSorted wAttr 1 1 :=
  ⟨C7_cut_first_dominance 2 wImage wOut0 wPar wSorted wAttr 1 (by decide)
      (by decide) (by decide) (by decide) 0 (by decide),
    C7_cut_first_dominance 2 wImage wOut0 wPar wSorted wAttr 1 (by decide)
      (by decide) (by decide) (by decide) 1 (by decide)⟩

/-! ### Claim C10: frame property of the three routines -/

lemma foldl_state_frame {α : Type _} (g : MTState α → Nat → MTState α)
    (hg : ∀ a p, (g a p).image = a.image ∧ (g a p).parent = a.parent ∧
      (g a p).sortedIndices = a.sortedIndices ∧ (g a p).attr = a.attr) :
    ∀ (l : List Nat) (acc : MTState α),
      (l.foldl g acc).image = acc.image ∧ (l.foldl g acc).parent = acc.parent ∧
      (l.foldl g acc).sortedIndices = acc.sortedIndices ∧
      (l.foldl g acc).attr = acc.attr := by
  intro l
  induction l with
  | nil => intro acc; exact ⟨rfl, rfl, rfl, rfl⟩
  | cons p rest ih =>
    intro acc
    have h1 := ih (g acc p)
    have h2 := hg acc p
    refine ⟨h1.1.trans h2.1, (h1.2.1).trans h2.2.1,
      (h1.2.2.1).trans h2.2.2.1, (h1.2.2.2).trans h2.2.2.2⟩

lemma foldl_pair_frame {γ δ : Type _} (g : γ × δ → Nat → γ × δ)
    (hg : ∀ a p, (g a p).1 = a.1) :
    ∀ (l : List Nat) (acc : γ × δ), (l.foldl g acc).1 = acc.1 := by
  intro l
  induction l with
  | nil => intro acc; rfl
  | cons p rest ih =>
    intro acc
    exact (ih (g acc p)).trans (hg acc p)

/-- Claim C10: the filters write only the output array and `_compute_area`
writes only its freshly allocated area array; the image, parent,
sorted-indices and attribute arrays are unchanged by each call. -/
theorem C10_frame {α : Type _} [LinearOrder α] [Zero α] (t : ℚ)
    (st : MTState α) :
    ((_direct_filter_state t st).image = st.image ∧
     (_direct_filter_state t st).parent = st.parent ∧
     (_direct_filter_state t st).sortedIndices = st.sortedIndices ∧
     (_direct_filter_state t st).attr = st.attr) ∧
    ((_cut_first_filter_state t st).image = st.image ∧
     (_cut_first_filter_state t st).parent = st.parent ∧
     (_cut_first_filter_state t st).sortedIndices = st.sortedIndices ∧
     (_cut_first_filter_state t st).attr = st.attr) ∧
    ((_compute_area_state st).1 = st) := by
  refine ⟨?_, ?_, ?_⟩
  · unfold _direct_filter_state
    apply foldl_state_frame
    intro a p
    dsimp only
    by_cases h1 : p = st.sortedIndices.headD 0
    · rw [if_pos h1]; exact ⟨rfl, rfl, rfl, rfl⟩
    · rw [if_neg h1]
      by_cases h2 : a.image p = a.image ((a.parent p).toNat)
      · rw [if_pos h2]; exact ⟨rfl, rfl, rfl, rfl⟩
      · rw [if_neg h2]
        by_cases h3 : a.attr p < t
        · rw [if_pos h3]; exact ⟨rfl, rfl, rfl, rfl⟩
        · rw [if_neg h3]; exact ⟨rfl, rfl, rfl, rfl⟩
  · unfold _cut_first_filter_state
    apply foldl_state_frame
    intro a p
    dsimp only
    by_cases h1 : p = st.sortedIndices.headD 0
    · rw [if_pos h1]; exact ⟨rfl, rfl, rfl, rfl⟩
    · rw [if_neg h1]
      by_cases h2 : a.image p = a.image ((a.parent p).toNat)
      · rw [if_pos h2]; exact ⟨rfl, rfl, rfl, rfl⟩
      · rw [if_neg h2]
        by_cases h3 : a.attr p < t ∨ a.output ((a.parent p).toNat) <
            a.image ((a.parent p).toNat)
        · rw [if_pos h3]; exact ⟨rfl, rfl, rfl, rfl⟩
        · rw [if_neg h3]; exact ⟨rfl, rfl, rfl, rfl⟩
  · unfold _compute_area_state
    apply foldl_pair_frame
    intro a p
    dsimp only
    by_cases h1 : p = st.sortedIndices.headD 0
    · rw [if_pos h1]
    · rw [if_neg h1]

/-! ### Claim C8: offsets_to_points -/

lemma mapM_points_ok (shape : List Int) (negShift : Int) (center : List Int) :
    ∀ (offsets : List Int),
      (∀ o ∈ offsets, 0 ≤ o + negShift ∧ o + negShift < prodList shape) →
      (offsets.mapM fun o =>
        match unravel_checked (o + negShift) shape with
        | Except.error e => Except.error e
        | Except.ok cur => Except.ok (List.zipWith (fun a b => a - b) cur center)) =
      Except.ok (offsets.map fun o =>
        List.zipWith (fun a b => a - b) (unravel (o + negShift) shape) center) := by
  intro offsets
  induction offsets with
  | nil => intro _; rfl
  | cons a l ih =>
    intro h
    have ha := h a (List.mem_cons_self a l)
    have hok : unravel_checked (a + negShift) shape =
        Except.ok (unravel (a + negShift) shape) := by
      unfold unravel_checked
      rw [if_pos ha]
    rw [List.mapM_cons, hok, ih (fun o ho => h o (List.mem_cons_of_mem _ ho))]
    rfl

lemma mapM_points_err (shape : List Int) (negShift : Int) (center : List Int) :
    ∀ (offsets : List Int),
      (∃ o ∈ offsets, ¬ (0 ≤ o + negShift ∧ o + negShift < prodList shape)) →
      (offsets.mapM fun o =>
        match unravel_checked (o + negShift) shape with
        | Except.error e => Except.error e
        | Except.ok cur => Except.ok (List.zipWith (fun a b => a - b) cur center)) =
      Except.error MTError.shapeMismatch := by
  intro offsets
  induction offsets with
  | nil =>
    intro h
    obtain ⟨o, ho, -⟩ := h
    exact absurd ho (List.not_mem_nil o)
  | cons a l ih =>
    intro h
    rw [List.mapM_cons]
    by_cases ha : 0 ≤ a + negShift ∧ a + negShift < prodList shape
    · have hok : unravel_checked (a + negShift) shape =
          Except.ok (unravel (a + negShift) shape) := by
        unfold unravel_checked
        rw [if_pos ha]
      have hl : ∃ o ∈ l, ¬ (0 ≤ o + negShift ∧ o + negShift < prodList shape) := by
        obtain ⟨o, ho, hno⟩ := h
        rcases List.mem_cons.1 ho with rfl | ho2
        · exact absurd ha hno
        · exact ⟨o, ho2, hno⟩
      rw [hok, ih hl]
      rfl
    · have herr : unravel_checked (a + negShift) shape =
          Except.error MTError.shapeMismatch := by
        unfold unravel_checked
        rw [if_neg ha]
      rw [herr]
      rfl

/-- Claim C8 (amended): for a nonempty offsets list with minimum `m` and
`neg_shift = -m`, `offsets_to_points` returns the per-dimension deltas
`unravel (o + neg_shift) - unravel neg_shift` when `neg_shift` itself and
every `o + neg_shift` lie in `[0, P)`; otherwise it fails with
`ShapeMismatch`.  (The claim as stated omits the condition on `neg_shift`
itself, which the center-point computation also checks.) -/
theorem C8_offsets_to_points_spec (offsets shape : List Int) (m : Int)
    (hmin : offsets.min? = some m) :
    (((0 ≤ -m ∧ -m < prodList shape) ∧
        ∀ o ∈ offsets, 0 ≤ o + -m ∧ o + -m < prodList shape) →
      offsets_to_points offsets shape =
        Except.ok (offsets.map fun o =>
          List.zipWith (fun a b => a - b) (unravel (o + -m) shape)
            (unravel (-m) shape))) ∧
    ((¬ ((0 ≤ -m ∧ -m < prodList shape) ∧
        ∀ o ∈ offsets, 0 ≤ o + -m ∧ o + -m < prodList shape)) →
      offsets_to_points offsets shape = Except.error MTError.shapeMismatch) := by
  constructor
  · rintro ⟨hc, hall⟩
    unfold offsets_to_points
    rw [hmin]
    have hok : unravel_checked (-m) shape = Except.ok (unravel (-m) shape) := by
      unfold unravel_checked
      rw [if_pos hc]
    dsimp only
    rw [hok]
    exact mapM_points_ok shape (-m) (unravel (-m) shape) offsets hall
  · intro hno
    unfold offsets_to_points
    rw [hmin]
    dsimp only
    by_cases hc : 0 ≤ -m ∧ -m < prodList shape
    · have hok : unravel_checked (-m) shape = Except.ok (unravel (-m) shape) := by
        unfold unravel_checked
        rw [if_pos hc]
      rw [hok]
      have hl : ∃ o ∈ offsets, ¬ (0 ≤ o + -m ∧ o + -m < prodList shape) := by
        push_neg at hno
        obtain ⟨o, ho, hno2⟩ := hno hc
        exact ⟨o, ho, fun hcon => absurd hcon.2 (not_lt.2 (hno2 hcon.1))⟩
      exact mapM_points_err shape (-m) (unravel (-m) shape) offsets hl
    · have herr : unravel_checked (-m) shape =
          Except.error MTError.shapeMismatch := by
        unfold unravel_checked
        rw [if_neg hc]
      rw [herr]

/-- Witness for the amended C8 on the symmetric 1-D connectivity. -/
theorem C8_witness :
    (((0 ≤ -(-1 : Int) ∧ -(-1 : Int) < prodList [3]) ∧
        ∀ o ∈ [(-1 : Int), 1], 0 ≤ o + -(-1 : Int) ∧ o + -(-1 : Int) < prodList [3]) →
      offsets_to_points [-1, 1] [3] =
        Except.ok ([(-1 : Int), 1].map fun o =>
          List.zipWith (fun a b => a - b) (unravel (o + -(-1 : Int)) [3])
            (unravel (-(-1 : Int)) [3]))) ∧
    ((¬ ((0 ≤ -(-1 : Int) ∧ -(-1 : Int) < prodList [3]) ∧
        ∀ o ∈ [(-1 : Int), 1], 0 ≤ o + -(-1 : Int) ∧ o + -(-1 : Int) < prodList [3])) →
      offsets_to_points [-1, 1] [3] = Except.error MTError.shapeMismatch) :=
  C8_offsets_to_points_spec [-1, 1] [3] (-1) (by decide)

/-- Claim C8 counterexample: for offsets `[1]` and shape `[2]` (so `P = 2`
and `neg_shift = -1`) every `o + neg_shift` lies inside `[0, P)`, so the
claim as stated requires the per-offset deltas to be returned; but the
function fails with `ShapeMismatch`, because the center point unravels
`neg_shift` itself, which is out of range. -/
theorem C8_counterexample :
    offsets_to_points [1] [2] = Except.error MTError.shapeMismatch ∧
    ([(1 : Int)].min? = some 1) ∧
    (∀ o ∈ [(1 : Int)], 0 ≤ o + -(1 : Int) ∧ o + -(1 : Int) < prodList [2]) :=
  ⟨rfl, rfl, by decide⟩

/-! ### Parent chains, walks and the area accumulation (claims C4, C6) -/

lemma parent_iter_add (par : Nat → Int) (a : Nat) :
    ∀ (b : Nat) (x : Nat), parent_iter par (a + b) x =
      parent_iter par a (parent_iter par b x) := by
  intro b
  induction b with
  | zero => intro x; rfl
  | succ b ih =>
    intro x
    show parent_iter par (a + b + 1) x = _
    have h1 : a + b + 1 = (a + b) + 1 := rfl
    rw [h1]
    show parent_iter par (a + b) ((par x).toNat) = _
    rw [ih ((par x).toNat)]
    rfl

lemma parent_iter_absorb {par : Nat → Int} {r0 : Nat}
    (Hroot : par r0 = Int.ofNat r0) :
    ∀ m, parent_iter par m r0 = r0 := by
  intro m
  induction m with
  | zero => rfl
  | succ m ih =>
    show parent_iter par m ((par r0).toNat) = r0
    rw [Hroot]
    exact ih

lemma chain_mem {s : List Nat} {par : Nat → Int}
    (Hroot : par (s.headD 0) = Int.ofNat (s.headD 0))
    (Hmem : ∀ p ∈ s, p ≠ s.headD 0 → (par p).toNat ∈ s) :
    ∀ k x, x ∈ s → parent_iter par k x ∈ s := by
  intro k
  induction k with
  | zero => intro x hx; exact hx
  | succ k ih =>
    intro x hx
    show parent_iter par k ((par x).toNat) ∈ s
    by_cases hxr : x = s.headD 0
    · subst hxr
      rw [Hroot]
      exact ih _ hx
    · exact ih _ (Hmem x hx hxr)

lemma chain_idx_strict {s : List Nat} {par : Nat → Int}
    (Hmem : ∀ p ∈ s, p ≠ s.headD 0 → (par p).toNat ∈ s)
    (Hlt : ∀ p ∈ s, p ≠ s.headD 0 →
      s.indexOf ((par p).toNat) < s.indexOf p) :
    ∀ k x, x ∈ s → (∀ j < k, parent_iter par j x ≠ s.headD 0) → 0 < k →
      s.indexOf (parent_iter par k x) < s.indexOf x := by
  intro k
  induction k with
  | zero => intro x _ _ h; exact absurd h (lt_irrefl 0)
  | succ k ih =>
    intro x hx hnr _
    have hxr : x ≠ s.headD 0 := hnr 0 (Nat.succ_pos k)
    have hq : (par x).toNat ∈ s := Hmem x hx hxr
    have hqlt : s.indexOf ((par x).toNat) < s.indexOf x := Hlt x hx hxr
    show s.indexOf (parent_iter par k ((par x).toNat)) < s.indexOf x
    rcases Nat.eq_zero_or_pos k with hk | hk
    · subst hk; exact hqlt
    · have hnr2 : ∀ j < k, parent_iter par j ((par x).toNat) ≠ s.headD 0 := by
        intro j hj
        exact hnr (j + 1) (by omega)
      exact lt_trans (ih _ hq hnr2 hk) hqlt

lemma root_reach {s : List Nat} {par : Nat → Int}
    (Hmem : ∀ p ∈ s, p ≠ s.headD 0 → (par p).toNat ∈ s)
    (Hlt : ∀ p ∈ s, p ≠ s.headD 0 →
      s.indexOf ((par p).toNat) < s.indexOf p) :
    ∀ x ∈ s, ∃ k ≤ s.indexOf x, parent_iter par k x = s.headD 0 := by
  have main : ∀ n, ∀ x ∈ s, s.indexOf x = n →
      ∃ k ≤ s.indexOf x, parent_iter par k x = s.headD 0 := by
    intro n
    induction n using Nat.strong_induction_on with
    | _ n IH =>
      intro x hx hn
      by_cases hxr : x = s.headD 0
      · exact ⟨0, Nat.zero_le _, hxr⟩
      · have hq : (par x).toNat ∈ s := Hmem x hx hxr
        have hqlt : s.indexOf ((par x).toNat) < s.indexOf x := Hlt x hx hxr
        obtain ⟨k, hk, hiter⟩ := IH _ (hn ▸ hqlt) _ hq rfl
        refine ⟨k + 1, by omega, ?_⟩
        show parent_iter par k ((par x).toNat) = s.headD 0
        exact hiter
  intro x hx
  exact main _ x hx rfl

/-! ### Walk lemmas for `fexit` -/

lemma fexit_not_mem (par : Nat → Int) (l : List Nat) {x : Nat} (hx : x ∉ l) :
    ∀ f, fexit par l f x = x := by
  intro f
  cases f with
  | zero => rfl
  | succ f =>
    show (if x ∈ l then fexit par l f ((par x).toNat) else x) = x
    rw [if_neg hx]

lemma fexit_mem (par : Nat → Int) (l : List Nat) {x : Nat} (hx : x ∈ l) (f : Nat) :
    fexit par l (f + 1) x = fexit par l f ((par x).toNat) := by
  show (if x ∈ l then fexit par l f ((par x).toNat) else x) = _
  rw [if_pos hx]

/-- A walk result is always a parent-chain iterate. -/
lemma fexit_is_iter (par : Nat → Int) (l : List Nat) :
    ∀ (f : Nat) (x : Nat), ∃ k ≤ f, fexit par l f x = parent_iter par k x := by
  intro f
  induction f with
  | zero => intro x; exact ⟨0, le_refl 0, rfl⟩
  | succ f ih =>
    intro x
    by_cases hx : x ∈ l
    · obtain ⟨k, hk, he⟩ := ih ((par x).toNat)
      refine ⟨k + 1, by omega, ?_⟩
      rw [fexit_mem par l hx f, he]
      rfl
    · exact ⟨0, Nat.zero_le _, fexit_not_mem par l hx _⟩

/-- If the chain from `x` reaches `y` with all intermediate elements inside
`l` and `y` outside `l`, the walk stops exactly at `y` (given enough fuel,
measured through strictly decreasing positions). -/
lemma fexit_follows_chain {s : List Nat} {par : Nat → Int} {l : List Nat}
    (Hdec : ∀ z ∈ l, s.indexOf ((par z).toNat) < s.indexOf z)
    {y : Nat} (hy : y ∉ l) :
    ∀ (k : Nat) (x : Nat) (f : Nat), s.indexOf x < f →
      parent_iter par k x = y → (∀ j < k, parent_iter par j x ∈ l) →
      fexit par l f x = y := by
  intro k
  induction k with
  | zero =>
    intro x f _ hiter _
    have hxy : x = y := hiter
    rw [hxy]
    exact fexit_not_mem par l hy f
  | succ k ih =>
    intro x f hf hiter hin
    have hx : x ∈ l := hin 0 (Nat.succ_pos k)
    cases f with
    | zero => exact absurd hf (Nat.not_lt_zero _)
    | succ f =>
      rw [fexit_mem par l hx f]
      apply ih ((par x).toNat) f
      · have h1 : s.indexOf ((par x).toNat) < s.indexOf x := Hdec x hx
        omega
      · exact hiter
      · intro j hj
        exact hin (j + 1) (by omega)

/-- Extending the walk region by the freshly processed pixel `p` reroutes
exactly the walks that used to stop at `p`, sending them one step further
to `p`'s parent. -/
lemma fexit_snoc {s : List Nat} {par : Nat → Int} {l : List Nat} {p : Nat}
    (Hdec : ∀ z ∈ l ++ [p], s.indexOf ((par z).toNat) < s.indexOf z)
    (hpt : (par p).toNat ∉ l ++ [p]) (hpl : p ∉ l) :
    ∀ (f : Nat) (x : Nat), s.indexOf x < f →
      fexit par (l ++ [p]) f x =
        (if fexit par l f x = p then (par p).toNat else fexit par l f x) := by
  intro f
  induction f with
  | zero => intro x hf; exact absurd hf (Nat.not_lt_zero _)
  | succ f ih =>
    intro x hf
    by_cases hx : x ∈ l
    · have hx2 : x ∈ l ++ [p] := List.mem_append_left _ hx
      rw [fexit_mem par _ hx2 f, fexit_mem par _ hx f]
      apply ih
      have h1 : s.indexOf ((par x).toNat) < s.indexOf x := Hdec x hx2
      omega
    · by_cases hxp : x = p
      · rw [hxp]
        have hx2 : p ∈ l ++ [p] := List.mem_append_right _ (List.mem_cons_self p [])
        rw [fexit_mem par _ hx2 f, fexit_not_mem par _ hpt f,
          fexit_not_mem par l hpl (f + 1), if_pos rfl]
      · have hx2 : x ∉ l ++ [p] := by
          intro h
          rcases List.mem_append.1 h with h | h
          · exact hx h
          · rcases List.mem_cons.1 h with h | h
            · exact hxp h
            · exact absurd h (List.not_mem_nil x)
        rw [fexit_not_mem par _ hx2 (f + 1), fexit_not_mem par l hx (f + 1),
          if_neg hxp]

lemma length_filter_or_disjoint {A B : Nat → Bool} :
    ∀ {L : List Nat}, (∀ x ∈ L, ¬ (A x = true ∧ B x = true)) →
      (L.filter fun x => A x || B x).length =
        (L.filter A).length + (L.filter B).length := by
  intro L
  induction L with
  | nil => intro _; rfl
  | cons a L ih =>
    intro h
    have hrest := ih fun x hx => h x (List.mem_cons_of_mem _ hx)
    by_cases hA : A a = true
    · by_cases hB : B a = true
      · exact absurd ⟨hA, hB⟩ (h a (List.mem_cons_self a L))
      · simp [List.filter_cons, hA, hB, hrest]
        try omega
    · by_cases hB : B a = true
      · simp [List.filter_cons, hA, hB, hrest]
        try omega
      · simp [List.filter_cons, hA, hB, hrest]
        try omega

/-! ### Helper facts about the sorted permutation -/

lemma perm_length {s : List Nat} {P : Nat} (Hperm : s.Perm (List.range P)) :
    s.length = P := by
  have h := Hperm.length_eq
  rwa [List.length_range] at h

lemma mem_s_iff {s : List Nat} {P : Nat} (Hperm : s.Perm (List.range P))
    {x : Nat} : x ∈ s ↔ x < P := by
  rw [Hperm.mem_iff, List.mem_range]

lemma idx_lt_P {s : List Nat} {P : Nat} (Hperm : s.Perm (List.range P))
    {x : Nat} (hx : x ∈ s) : s.indexOf x < P := by
  rw [← perm_length Hperm]
  exact List.indexOf_lt_length.2 hx

lemma s_ne_nil {s : List Nat} {P : Nat} (Hperm : s.Perm (List.range P))
    (Hpos : 0 < P) : s ≠ [] := by
  intro h
  have := perm_length Hperm
  rw [h] at this
  simp at this
  omega

lemma idx_headD {s : List Nat} (h : s ≠ []) : s.indexOf (s.headD 0) = 0 := by
  cases s with
  | nil => exact absurd rfl h
  | cons a l => exact List.indexOf_cons_self a l

lemma idx_pos_of_ne_root {s : List Nat} {P : Nat} (Hperm : s.Perm (List.range P))
    (Hpos : 0 < P) {z : Nat} (hz : z ∈ s) (hzr : z ≠ s.headD 0) :
    0 < s.indexOf z := by
  rcases Nat.eq_zero_or_pos (s.indexOf z) with h | h
  · exfalso
    apply hzr
    apply idx_inj hz (head_mem_of_pos Hperm Hpos)
    rw [h, idx_headD (s_ne_nil Hperm Hpos)]
  · exact h

/-! ### The area accumulation loop -/

lemma area_loop_append (par : Nat → Int) (r0 : Nat) (a0 : Nat → ℚ)
    (l1 l2 : List Nat) :
    compute_area_loop par r0 a0 (l1 ++ l2) =
      compute_area_loop par r0 (compute_area_loop par r0 a0 l1) l2 := by
  unfold compute_area_loop
  rw [List.foldl_append]

lemma area_loop_no_write (par : Nat → Int) (r0 : Nat) :
    ∀ (l : List Nat) (a : Nat → ℚ) (z : Nat),
      (∀ p ∈ l, p ≠ r0 → (par p).toNat ≠ z) →
      compute_area_loop par r0 a l z = a z := by
  intro l
  induction l with
  | nil => intro a z _; rfl
  | cons p rest ih =>
    intro a z h
    show compute_area_loop par r0
      (if p = r0 then a else upd a ((par p).toNat) (a ((par p).toNat) + a p))
      rest z = a z
    rw [ih _ _ (fun q hq => h q (List.mem_cons_of_mem _ hq))]
    by_cases hp : p = r0
    · rw [if_pos hp]
    · rw [if_neg hp, upd_ne _ _ (Ne.symm (h p (List.mem_cons_self p rest) hp))]

/-- Invariant of the area accumulation: after processing the prefix `d1` of
the reversed traversal, the value at every still-unprocessed pixel `y`
counts the pixels whose parent-chain walk first leaves `d1` at `y`. -/
lemma area_loop_invariant {P : Nat} {s : List Nat} {par : Nat → Int}
    (Hpos : 0 < P) (Hperm : s.Perm (List.range P))
    (Htree : ∀ p ∈ s, p ≠ s.headD 0 → 0 ≤ par p ∧ (par p).toNat ∈ s ∧
      s.indexOf ((par p).toNat) < s.indexOf p) :
    ∀ (d1 d2 : List Nat), s.reverse = d1 ++ d2 →
      ∀ y ∈ s, y ∉ d1 →
        compute_area_loop par (s.headD 0) (fun _ => 1) d1 y =
          (fexit_count P par d1 y : ℚ) := by
  have hnd : s.Nodup := Hperm.symm.nodup (List.nodup_range P)
  intro d1
  induction d1 using List.reverseRecOn with
  | nil =>
    intro d2 hd y hy hynot
    have hcount : fexit_count P par [] y = 1 := by
      unfold fexit_count
      have hcongr : ∀ x ∈ List.range P,
          (fexit par [] P x == y) = (x == y) := by
        intro x _
        rw [fexit_not_mem par [] (List.not_mem_nil x) P]
      rw [List.filter_congr hcongr, ← List.countP_eq_length_filter]
      have hyP : y < P := (mem_s_iff Hperm).1 hy
      have : List.countP (fun x => x == y) (List.range P) =
          (List.range P).count y := rfl
      rw [this]
      exact List.count_eq_one_of_mem (List.nodup_range P) (List.mem_range.2 hyP)
    rw [hcount]
    norm_num
    rfl
  | append_singleton l p ih =>
    intro d2 hd y hy hynot
    have hd2 : s.reverse = l ++ (p :: d2) := by
      rw [hd]
      simp
    have hs : s = d2.reverse ++ p :: l.reverse := by
      rw [← List.reverse_reverse s, hd2]
      simp [List.reverse_append]
    have hps : p ∈ s := by
      rw [hs]
      exact List.mem_append_right _ (List.mem_cons_self _ _)
    have hmem_l_s : ∀ z ∈ l, z ∈ s := by
      intro z hz
      rw [hs]
      exact List.mem_append_right _
        (List.mem_cons_of_mem _ (List.mem_reverse.2 hz))
    have hidx_l : ∀ z ∈ l, s.indexOf p < s.indexOf z := by
      intro z hz
      exact idx_right_gt hnd hs (List.mem_reverse.2 hz)
    have hpl : p ∉ l := by
      intro hple
      exact absurd (hidx_l p hple) (lt_irrefl _)
    have hyl : y ∉ l := fun h => hynot (List.mem_append_left _ h)
    have hyp : y ≠ p := by
      intro h
      exact hynot (h ▸ List.mem_append_right _ (List.mem_cons_self _ _))
    have hstep : ∀ z, compute_area_loop par (s.headD 0) (fun _ => 1) (l ++ [p]) z =
        (if p = s.headD 0
          then compute_area_loop par (s.headD 0) (fun _ => 1) l
          else upd (compute_area_loop par (s.headD 0) (fun _ => 1) l)
            ((par p).toNat)
            (compute_area_loop par (s.headD 0) (fun _ => 1) l ((par p).toNat) +
              compute_area_loop par (s.headD 0) (fun _ => 1) l p)) z := by
      intro z
      rw [area_loop_append]
      rfl
    by_cases hpr : p = s.headD 0
    · -- the root is processed last: everything else is already in the prefix
      exfalso
      cases hd2e : d2 with
      | nil =>
        apply hynot
        have h1 : y ∈ s.reverse := List.mem_reverse.2 hy
        rw [hd, hd2e, List.append_nil] at h1
        exact h1
      | cons a d2t =>
        have ha : a ∈ d2.reverse := by
          rw [hd2e]
          simp
        have h2 := idx_left_lt hnd hs ha
        have h3 : s.indexOf p = 0 := by
          rw [hpr]
          exact idx_headD (s_ne_nil Hperm Hpos)
        omega
    · -- non-root step
      obtain ⟨-, hptm, hptlt⟩ := Htree p hps hpr
      have ihl : ∀ z ∈ s, z ∉ l →
          compute_area_loop par (s.headD 0) (fun _ => 1) l z =
            (fexit_count P par l z : ℚ) := fun z hz hznot =>
        ih (p :: d2) hd2 z hz hznot
      have hptl : (par p).toNat ∉ l := by
        intro hin
        exact absurd hptlt (not_lt.2 (le_of_lt (hidx_l _ hin)))
      have hpt_ne_p : (par p).toNat ≠ p := by
        intro h
        rw [h] at hptlt
        exact absurd hptlt (lt_irrefl _)
      have hptlp : (par p).toNat ∉ l ++ [p] := by
        intro h
        rcases List.mem_append.1 h with h | h
        · exact hptl h
        · rcases List.mem_cons.1 h with h | h
          · exact hpt_ne_p h
          · exact absurd h (List.not_mem_nil _)
      have Hdec : ∀ z ∈ l ++ [p], s.indexOf ((par z).toNat) < s.indexOf z := by
        intro z hz
        rcases List.mem_append.1 hz with hz | hz
        · have hzs := hmem_l_s z hz
          have hzr : z ≠ s.headD 0 := by
            intro h
            have h1 := hidx_l z hz
            rw [h, idx_headD (s_ne_nil Hperm Hpos)] at h1
            omega
          exact (Htree z hzs hzr).2.2
        · rcases List.mem_cons.1 hz with hz | hz
          · rw [hz]
            exact hptlt
          · exact absurd hz (List.not_mem_nil _)
      have hsnoc : ∀ x ∈ List.range P,
          fexit par (l ++ [p]) P x =
            (if fexit par l P x = p then (par p).toNat else fexit par l P x) := by
        intro x hx
        apply fexit_snoc Hdec hptlp hpl
        exact lt_of_lt_of_le (List.indexOf_lt_length.2
          ((mem_s_iff Hperm).2 (List.mem_range.1 hx))) (le_of_eq (perm_length Hperm))
      rw [hstep, if_neg hpr]
      by_cases hypt : y = (par p).toNat
      · -- y is the write target: it accumulates the count that flowed to p
        rw [hypt, upd_same, ihl _ hptm hptl, ihl _ hps hpl]
        have hcount : fexit_count P par (l ++ [p]) ((par p).toNat) =
            fexit_count P par l ((par p).toNat) + fexit_count P par l p := by
          unfold fexit_count
          have hcongr : ∀ x ∈ List.range P,
              (fexit par (l ++ [p]) P x == (par p).toNat) =
                ((fexit par l P x == (par p).toNat) || (fexit par l P x == p)) := by
            intro x hx
            rw [hsnoc x hx]
            by_cases hfe : fexit par l P x = p
            · rw [if_pos hfe, hfe]
              simp [Ne.symm hpt_ne_p]
            · rw [if_neg hfe]
              simp [hfe]
          rw [List.filter_congr hcongr,
            length_filter_or_disjoint (A := fun x => fexit par l P x == (par p).toNat)
              (B := fun x => fexit par l P x == p)]
          intro x _
          intro hcon
          rw [beq_iff_eq] at hcon
          obtain ⟨h1, h2⟩ := hcon
          rw [beq_iff_eq] at h2
          rw [h2] at h1
          exact hpt_ne_p h1.symm
        rw [hypt] at *
        rw [hcount]
        push_cast
        ring
      · -- any other unprocessed pixel keeps its count
        rw [upd_ne _ _ hypt, ihl _ hy hyl]
        have hcount : fexit_count P par (l ++ [p]) y = fexit_count P par l y := by
          unfold fexit_count
          apply congrArg
          apply List.filter_congr
          intro x hx
          rw [hsnoc x hx]
          by_cases hfe : fexit par l P x = p
          · rw [if_pos hfe, hfe]
            have h1 : ((par p).toNat == y) = false := by
              simp [Ne.symm hypt]
            have h2 : (p == y) = false := by
              simp [Ne.symm hyp]
            rw [h1, h2]
          · rw [if_neg hfe]
        rw [hcount]

/-! ### From walks to subtrees -/

lemma is_desc_true_iff (P : Nat) (par : Nat → Int) (x p : Nat) :
    is_desc P par x p = true ↔ ∃ k ≤ P, parent_iter par k x = p := by
  unfold is_desc
  rw [List.any_eq_true]
  constructor
  · rintro ⟨k, hk, he⟩
    exact ⟨k, Nat.lt_succ_iff.1 (List.mem_range.1 hk), by rwa [beq_iff_eq] at he⟩
  · rintro ⟨k, hk, he⟩
    exact ⟨k, List.mem_range.2 (Nat.lt_succ_iff.2 hk), beq_iff_eq.2 he⟩

/-- If some parent chain from `x` reaches `y`, the walk over the region of
pixels sitting strictly after `y` in sorted order stops exactly at `y`. -/
lemma desc_fexit {P : Nat} {s : List Nat} {par : Nat → Int}
    (Hpos : 0 < P) (Hperm : s.Perm (List.range P))
    (Htree : ∀ p ∈ s, p ≠ s.headD 0 → 0 ≤ par p ∧ (par p).toNat ∈ s ∧
      s.indexOf ((par p).toNat) < s.indexOf p)
    (Hroot : par (s.headD 0) = Int.ofNat (s.headD 0))
    {y : Nat} (_hy : y ∈ s) {e1 e2 : List Nat}
    (hd : s.reverse = e1 ++ y :: e2) :
    ∀ x ∈ s, (∃ k ≤ P, parent_iter par k x = y) → fexit par e1 P x = y := by
  have hnd : s.Nodup := Hperm.symm.nodup (List.nodup_range P)
  have hs : s = e2.reverse ++ y :: e1.reverse := by
    rw [← List.reverse_reverse s, hd]
    simp [List.reverse_append]
  have he1_char : ∀ z ∈ e1, z ∈ s ∧ s.indexOf y < s.indexOf z := by
    intro z hz
    refine ⟨?_, idx_right_gt hnd hs (List.mem_reverse.2 hz)⟩
    rw [hs]
    exact List.mem_append_right _ (List.mem_cons_of_mem _ (List.mem_reverse.2 hz))
  have he1_char2 : ∀ z ∈ s, s.indexOf y < s.indexOf z → z ∈ e1 := by
    intro z hz hlt
    exact List.mem_reverse.1 (mem_right_of_idx_gt hnd hs hz hlt)
  have hye1 : y ∉ e1 := fun h => absurd (he1_char y h).2 (lt_irrefl _)
  have Hmem : ∀ p ∈ s, p ≠ s.headD 0 → (par p).toNat ∈ s := fun p hp hpr =>
    (Htree p hp hpr).2.1
  have Hlt : ∀ p ∈ s, p ≠ s.headD 0 →
      s.indexOf ((par p).toNat) < s.indexOf p := fun p hp hpr =>
    (Htree p hp hpr).2.2
  intro x hx hex
  obtain ⟨k0, _, he0⟩ := hex
  have hexists : ∃ k, parent_iter par k x = y := ⟨k0, he0⟩
  have hspec : parent_iter par (Nat.find hexists) x = y := Nat.find_spec hexists
  have hmin : ∀ j < Nat.find hexists, parent_iter par j x ≠ y := fun j hj =>
    Nat.find_min hexists hj
  have fact1 : ∀ j < Nat.find hexists, parent_iter par j x ≠ s.headD 0 := by
    intro j hj hcon
    by_cases hyr : y = s.headD 0
    · exact hmin j hj (hcon.trans hyr.symm)
    · apply hyr
      have h1 : parent_iter par (Nat.find hexists) x =
          parent_iter par (Nat.find hexists - j) (parent_iter par j x) := by
        rw [← parent_iter_add]
        congr 1
        omega
      rw [hcon, parent_iter_absorb Hroot] at h1
      rw [← hspec, h1]
  have fact2 : ∀ j < Nat.find hexists, parent_iter par j x ∈ e1 := by
    intro j hj
    have hmemj : parent_iter par j x ∈ s := chain_mem Hroot Hmem j x hx
    apply he1_char2 _ hmemj
    have h1 : parent_iter par (Nat.find hexists) x =
        parent_iter par (Nat.find hexists - j) (parent_iter par j x) := by
      rw [← parent_iter_add]
      congr 1
      omega
    have h2 : s.indexOf (parent_iter par (Nat.find hexists - j)
        (parent_iter par j x)) < s.indexOf (parent_iter par j x) := by
      apply chain_idx_strict Hmem Hlt (Nat.find hexists - j) _ hmemj
      · intro i hi
        have h3 : parent_iter par i (parent_iter par j x) =
            parent_iter par (i + j) x := (parent_iter_add par i j x).symm
        rw [h3]
        exact fact1 (i + j) (by omega)
      · omega
    rw [← h1] at h2
    rwa [hspec] at h2
  have Hdec : ∀ z ∈ e1, s.indexOf ((par z).toNat) < s.indexOf z := by
    intro z hz
    obtain ⟨hzs, hzlt⟩ := he1_char z hz
    have hzr : z ≠ s.headD 0 := by
      intro h
      rw [h, idx_headD (s_ne_nil Hperm Hpos)] at hzlt
      omega
    exact Hlt z hzs hzr
  exact fexit_follows_chain Hdec hye1 (Nat.find hexists) x P
    (idx_lt_P Hperm hx) hspec fact2

lemma fexit_count_eq_subtree {P : Nat} {s : List Nat} {par : Nat → Int}
    (Hpos : 0 < P) (Hperm : s.Perm (List.range P))
    (Htree : ∀ p ∈ s, p ≠ s.headD 0 → 0 ≤ par p ∧ (par p).toNat ∈ s ∧
      s.indexOf ((par p).toNat) < s.indexOf p)
    (Hroot : par (s.headD 0) = Int.ofNat (s.headD 0))
    {y : Nat} (hy : y ∈ s) {e1 e2 : List Nat}
    (hd : s.reverse = e1 ++ y :: e2) :
    fexit_count P par e1 y = subtree_count P par y := by
  unfold fexit_count subtree_count
  apply congrArg
  apply List.filter_congr
  intro x hxr
  have hxs : x ∈ s := (mem_s_iff Hperm).2 (List.mem_range.1 hxr)
  by_cases hf : fexit par e1 P x = y
  · have l1 : (fexit par e1 P x == y) = true := beq_iff_eq.2 hf
    have r1 : is_desc P par x y = true := by
      rw [is_desc_true_iff]
      obtain ⟨k, hk, he⟩ := fexit_is_iter par e1 P x
      refine ⟨k, hk, ?_⟩
      rw [← he]
      exact hf
    rw [l1, r1]
  · have l1 : (fexit par e1 P x == y) = false := by
      simp [hf]
    have r1 : is_desc P par x y = false := by
      cases hdes : is_desc P par x y with
      | false => rfl
      | true =>
        exact absurd (desc_fexit Hpos Hperm Htree Hroot hy hd x hxs
          ((is_desc_true_iff P par x y).1 hdes)) hf
    rw [l1, r1]

/-- The area array computed by `_compute_area` holds, at every pixel, the
number of pixels of the subtree rooted there. -/
lemma compute_area_eq_subtree {α : Type _} (image : Nat → α) {P : Nat}
    {s : List Nat} {par : Nat → Int}
    (Hpos : 0 < P) (Hperm : s.Perm (List.range P))
    (Htree : ∀ p ∈ s, p ≠ s.headD 0 → 0 ≤ par p ∧ (par p).toNat ∈ s ∧
      s.indexOf ((par p).toNat) < s.indexOf p)
    (Hroot : par (s.headD 0) = Int.ofNat (s.headD 0)) :
    ∀ y ∈ s, _compute_area image par s y = (subtree_count P par y : ℚ) := by
  have hnd : s.Nodup := Hperm.symm.nodup (List.nodup_range P)
  have hndr : s.reverse.Nodup := List.nodup_reverse.2 hnd
  intro y hy
  obtain ⟨e1, e2, hd⟩ := List.append_of_mem (List.mem_reverse.2 hy)
  have hs : s = e2.reverse ++ y :: e1.reverse := by
    rw [← List.reverse_reverse s, hd]
    simp [List.reverse_append]
  have hnd2 : (e1 ++ y :: e2).Nodup := hd ▸ hndr
  have hye1 : y ∉ e1 := by
    intro h
    exact (List.nodup_append.1 hnd2).2.2 h (List.mem_cons_self _ _)
  have hsplit : _compute_area image par s y =
      compute_area_loop par (s.headD 0)
        (compute_area_loop par (s.headD 0) (fun _ => 1) (e1 ++ [y])) e2 y := by
    unfold _compute_area
    rw [hd, show e1 ++ y :: e2 = (e1 ++ [y]) ++ e2 by simp, area_loop_append]
  have hfreeze : compute_area_loop par (s.headD 0)
      (compute_area_loop par (s.headD 0) (fun _ => 1) (e1 ++ [y])) e2 y =
      compute_area_loop par (s.headD 0) (fun _ => 1) (e1 ++ [y]) y := by
    apply area_loop_no_write
    intro p hp hpr
    have hpu : p ∈ e2.reverse := List.mem_reverse.2 hp
    have hlt := idx_left_lt hnd hs hpu
    have hps : p ∈ s := by
      rw [hs]
      exact List.mem_append_left _ hpu
    have h2 := (Htree p hps hpr).2.2
    intro hcon
    rw [hcon] at h2
    omega
  have hystep : compute_area_loop par (s.headD 0) (fun _ => 1) (e1 ++ [y]) y =
      compute_area_loop par (s.headD 0) (fun _ => 1) e1 y := by
    rw [area_loop_append]
    show (if y = s.headD 0
      then compute_area_loop par (s.headD 0) (fun _ => 1) e1
      else upd (compute_area_loop par (s.headD 0) (fun _ => 1) e1)
        ((par y).toNat)
        (compute_area_loop par (s.headD 0) (fun _ => 1) e1 ((par y).toNat) +
          compute_area_loop par (s.headD 0) (fun _ => 1) e1 y)) y = _
    by_cases hyr : y = s.headD 0
    · rw [if_pos hyr]
    · rw [if_neg hyr]
      have hne : (par y).toNat ≠ y := by
        have h2 := (Htree y hy hyr).2.2
        intro h
        rw [h] at h2
        exact absurd h2 (lt_irrefl _)
      exact upd_ne _ _ (Ne.symm hne)
  rw [hsplit, hfreeze, hystep,
    area_loop_invariant Hpos Hperm Htree e1 (y :: e2) hd y hy hye1,
    fexit_count_eq_subtree Hpos Hperm Htree Hroot hy hd]

/-- The subtree of the root is the whole pixel set. -/
lemma subtree_count_root {P : Nat} {s : List Nat} {par : Nat → Int}
    (_Hpos : 0 < P) (Hperm : s.Perm (List.range P))
    (Htree : ∀ p ∈ s, p ≠ s.headD 0 → 0 ≤ par p ∧ (par p).toNat ∈ s ∧
      s.indexOf ((par p).toNat) < s.indexOf p) :
    subtree_count P par (s.headD 0) = P := by
  have Hmem : ∀ p ∈ s, p ≠ s.headD 0 → (par p).toNat ∈ s := fun p hp hpr =>
    (Htree p hp hpr).2.1
  have Hlt : ∀ p ∈ s, p ≠ s.headD 0 →
      s.indexOf ((par p).toNat) < s.indexOf p := fun p hp hpr =>
    (Htree p hp hpr).2.2
  unfold subtree_count
  have hall : ∀ x ∈ List.range P, is_desc P par x (s.headD 0) = true := by
    intro x hxr
    have hxs : x ∈ s := (mem_s_iff Hperm).2 (List.mem_range.1 hxr)
    rw [is_desc_true_iff]
    obtain ⟨k, hk, he⟩ := root_reach Hmem Hlt x hxs
    have hkp : k ≤ P := le_trans hk (le_of_lt (idx_lt_P Hperm hxs))
    exact ⟨k, hkp, he⟩
  rw [List.filter_eq_self.2 hall, List.length_range]

/-- Claim C4: `_compute_area` returns the array initialized to one and
accumulated in reverse sorted order, whose value at every pixel is the
pixel count of the subtree rooted there, with value `P` at the root. -/
theorem C4_compute_area {α : Type _} (P : Nat) (image : Nat → α)
    (par : Nat → Int) (s : List Nat)
    (Hpos : 0 < P) (Hperm : s.Perm (List.range P))
    (Htree : ∀ p ∈ s, p ≠ s.headD 0 → 0 ≤ par p ∧ (par p).toNat ∈ s ∧
      s.indexOf ((par p).toNat) < s.indexOf p)
    (Hroot : par (s.headD 0) = Int.ofNat (s.headD 0)) :
    (∀ p < P, _compute_area image par s p = (subtree_count P par p : ℚ)) ∧
    _compute_area image par s (s.headD 0) = (P : ℚ) := by
  constructor
  · intro p hp
    exact compute_area_eq_subtree image Hpos Hperm Htree Hroot p
      ((mem_s_iff Hperm).2 hp)
  · rw [compute_area_eq_subtree image Hpos Hperm Htree Hroot _
      (head_mem_of_pos Hperm Hpos), subtree_count_root Hpos Hperm Htree]

/-- Witness for C4 on a concrete two-pixel input. -/
theorem C4_witness :
    (∀ p < 2, _compute_area wImage wPar wSorted p =
      (subtree_count 2 wPar p : ℚ)) ∧
    _compute_area wImage wPar wSorted (wSorted.headD 0) = ((2 : Nat) : ℚ) :=
  C4_compute_area 2 wImage wPar wSorted (by decide) (by decide) (by decide)
    (by decide)

/-! ### Claim C6: threshold above the root area zeroes everything -/

/-- Claim C6: with the area attribute of `_compute_area` and any threshold
strictly above the root area, both filters write an all-zero image. -/
theorem C6_threshold_above_root {α : Type _} [LinearOrder α] [Zero α]
    (P : Nat) (image out0 : Nat → α) (par : Nat → Int) (s : List Nat) (t : ℚ)
    (Hpos : 0 < P) (Hperm : s.Perm (List.range P))
    (Htree : ∀ p ∈ s, p ≠ s.headD 0 → 0 ≤ par p ∧ (par p).toNat ∈ s ∧
      s.indexOf ((par p).toNat) < s.indexOf p)
    (Hroot : par (s.headD 0) = Int.ofNat (s.headD 0))
    (Ht : _compute_area image par s (s.headD 0) < t) :
    ∀ p < P,
      _direct_filter image out0 par s (_compute_area image par s) t p = 0 ∧
      _cut_first_filter image out0 par s (_compute_area image par s) t p = 0 := by
  have Htree2 : ∀ p ∈ s, p ≠ s.headD 0 → (par p).toNat ∈ s ∧
      s.indexOf ((par p).toNat) < s.indexOf p := by
    intro p hp hpr
    exact (Htree p hp hpr).2
  have hattr : ∀ p ∈ s, _compute_area image par s p < t := by
    intro p hp
    have h1 := compute_area_eq_subtree image Hpos Hperm Htree Hroot p hp
    have h3 := compute_area_eq_subtree image Hpos Hperm Htree Hroot _
      (head_mem_of_pos Hperm Hpos)
    rw [subtree_count_root Hpos Hperm Htree] at h3
    have h2 : subtree_count P par p ≤ P := by
      have := List.length_filter_le (fun x => is_desc P par x p) (List.range P)
      unfold subtree_count
      simpa using this
    have h4 : (subtree_count P par p : ℚ) ≤ (P : ℚ) := by
      exact_mod_cast h2
    calc _compute_area image par s p = (subtree_count P par p : ℚ) := h1
      _ ≤ (P : ℚ) := h4
      _ = _compute_area image par s (s.headD 0) := h3.symm
      _ < t := Ht
  have main := tree_induction Htree2 (fun x =>
      _direct_filter image out0 par s (_compute_area image par s) t x = 0 ∧
      _cut_first_filter image out0 par s (_compute_area image par s) t x = 0)
    (by
      intro x hx hxr
      subst hxr
      rw [direct_filter_root, cut_first_filter_root,
        if_pos (hattr _ (head_mem_of_pos Hperm Hpos))]
      exact ⟨rfl, rfl⟩)
    (by
      intro x hx hxr IH
      rw [direct_filter_eq_at image out0 par (_compute_area image par s) t
          Hperm Htree hx hxr,
        cut_first_filter_eq_at image out0 par (_compute_area image par s) t
          Hperm Htree hx hxr]
      dsimp only [F_direct, F_cut]
      by_cases h2 : image x = image ((par x).toNat)
      · rw [if_pos h2, if_pos h2]
        exact IH
      · rw [if_neg h2, if_neg h2, if_pos (hattr x hx),
          if_pos (Or.inl (hattr x hx))]
        exact IH)
  intro p hp
  exact main p ((mem_s_iff Hperm).2 hp)

/-- Witness for C6 on a concrete two-pixel input, with the threshold one
above the root area, at pixels 0 and 1. -/
theorem C6_witness :
    (_direct_filter wImage wOut0 wPar wSorted (_compute_area wImage wPar wSorted)
        (_compute_area wImage wPar wSorted (wSorted.headD 0) + 1) 0 = 0 ∧
      _cut_first_filter wImage wOut0 wPar wSorted (_compute_area wImage wPar wSorted)
        (_compute_area wImage wPar wSorted (wSorted.headD 0) + 1) 0 = 0) ∧
    (_direct_filter wImage wOut0 wPar wSorted (_compute_area wImage wPar wSorted)
        (_compute_area wImage wPar wSorted (wSorted.headD 0) + 1) 1 = 0 ∧
      _cut_first_filter wImage wOut0 wPar wSorted (_compute_area wImage wPar wSorted)
        (_compute_area wImage wPar wSorted (wSorted.headD 0) + 1) 1 = 0) :=
  ⟨C6_threshold_above_root 2 wImage wOut0 wPar wSorted
      (_compute_area wImage wPar wSorted (wSorted.headD 0) + 1) (by decide)
      (by decide) (by decide) (by decide) (lt_add_one _) 0 (by decide),
    C6_threshold_above_root 2 wImage wOut0 wPar wSorted
      (_compute_area wImage wPar wSorted (wSorted.headD 0) + 1) (by decide)
      (by decide) (by decide) (by decide) (lt_add_one _) 1 (by decide)⟩

/-! ### Claim C1: the builder -/

lemma find_root_inv {s : List Nat} {procd : List Nat} :
    ∀ (fuel : Nat) (zpar : Nat → Int) (x : Nat),
      (∀ z, z ∉ procd → zpar z = -1) →
      (∀ z ∈ procd, 0 ≤ zpar z ∧ (zpar z).toNat ∈ procd ∧
        s.indexOf ((zpar z).toNat) ≤ s.indexOf z) →
      x ∈ procd →
      (∀ z, z ∉ procd → (find_root fuel zpar x).1 z = -1) ∧
      (∀ z ∈ procd, 0 ≤ (find_root fuel zpar x).1 z ∧
        ((find_root fuel zpar x).1 z).toNat ∈ procd ∧
        s.indexOf (((find_root fuel zpar x).1 z).toNat) ≤ s.indexOf z) ∧
      (find_root fuel zpar x).2 ∈ procd ∧
      s.indexOf ((find_root fuel zpar x).2) ≤ s.indexOf x := by
  intro fuel
  induction fuel with
  | zero =>
    intro zpar x h1 h2 hx
    exact ⟨fun z hz => (h1 z hz), h2, hx, le_refl _⟩
  | succ fuel ih =>
    intro zpar x h1 h2 hx
    have hunf : find_root (fuel + 1) zpar x =
        (if zpar x = Int.ofNat x then (zpar, x)
         else (upd (find_root fuel zpar (zpar x).toNat).1 x
            (Int.ofNat (find_root fuel zpar (zpar x).toNat).2),
          (find_root fuel zpar (zpar x).toNat).2)) := rfl
    rw [hunf]
    by_cases hz : zpar x = Int.ofNat x
    · rw [if_pos hz]
      exact ⟨fun z hzp => h1 z hzp, h2, hx, le_refl _⟩
    · rw [if_neg hz]
      obtain ⟨hxge, hxm, hxle⟩ := h2 x hx
      obtain ⟨r1, r2, r3, r4⟩ := ih zpar ((zpar x).toNat) h1 h2 hxm
      dsimp only
      refine ⟨?_, ?_, r3, le_trans r4 hxle⟩
      · intro z hzp
        have hzx : z ≠ x := by
          intro h
          rw [h] at hzp
          exact hzp hx
        rw [upd_ne _ _ hzx]
        exact r1 z hzp
      · intro z hzp
        by_cases hzx : z = x
        · subst hzx
          rw [upd_same]
          refine ⟨Int.ofNat_nonneg _, ?_, ?_⟩
          · exact r3
          · exact le_trans r4 hxle
        · rw [upd_ne _ _ hzx]
          exact r2 z hzp

lemma build_step_inv {P : Nat} {s : List Nat}
    (mask : Nat → Bool) (neigh : List (Int × List Int)) (shape : List Int)
    {procd : List Nat} {p : Nat} {st : (Nat → Int) × (Nat → Int)}
    (hfresh : ∀ z ∈ procd, s.indexOf p < s.indexOf z)
    (hinv : SweepInv s procd st) :
    SweepInv s (p :: procd) (build_step P mask neigh shape st p) := by
  obtain ⟨h1, h2⟩ := hinv
  have hst0 : SweepInv s (p :: procd)
      (upd st.1 p (Int.ofNat p), upd st.2 p (Int.ofNat p)) := by
    constructor
    · intro z hz
      have hzp : z ≠ p := fun h => hz (h ▸ List.mem_cons_self _ _)
      have hzpr : z ∉ procd := fun h => hz (List.mem_cons_of_mem _ h)
      dsimp only
      rw [upd_ne _ _ hzp, upd_ne _ _ hzp]
      exact h1 z hzpr
    · intro z hz
      dsimp only
      rcases List.mem_cons.1 hz with hz | hz
      · subst hz
        rw [upd_same, upd_same]
        exact ⟨⟨Int.ofNat_nonneg _, List.mem_cons_self _ _, le_refl _⟩,
          ⟨Int.ofNat_nonneg _, List.mem_cons_self _ _, le_refl _⟩⟩
      · have hzp : z ≠ p := by
          intro h
          rw [h] at hz
          exact absurd (hfresh p hz) (lt_irrefl _)
        rw [upd_ne _ _ hzp, upd_ne _ _ hzp]
        obtain ⟨⟨a1, a2, a3⟩, ⟨b1, b2, b3⟩⟩ := h2 z hz
        exact ⟨⟨a1, List.mem_cons_of_mem _ a2, a3⟩,
          ⟨b1, List.mem_cons_of_mem _ b2, b3⟩⟩
  show SweepInv s (p :: procd)
    (neigh.foldl _ (upd st.1 p (Int.ofNat p), upd st.2 p (Int.ofNat p)))
  generalize hst : (upd st.1 p (Int.ofNat p), upd st.2 p (Int.ofNat p)) = st0 at hst0
  clear hst h1 h2
  induction neigh generalizing st0 with
  | nil => exact hst0
  | cons sp rest ih =>
    apply ih
    obtain ⟨g1, g2⟩ := hst0
    by_cases hc1 : (!mask p && !_is_valid_coordinate p sp.2 shape) = true
    · show SweepInv s (p :: procd)
        (if !mask p && !_is_valid_coordinate p sp.2 shape then st0 else _)
      rw [if_pos hc1]
      exact ⟨g1, g2⟩
    · show SweepInv s (p :: procd)
        (if !mask p && !_is_valid_coordinate p sp.2 shape then st0 else _)
      rw [if_neg hc1]
      by_cases hc2 : readAt P st0.1 (Int.ofNat p + sp.1) < 0
      · rw [if_pos hc2]
        exact ⟨g1, g2⟩
      · rw [if_neg hc2]
        have hidx : (Int.ofNat p + sp.1).toNat ∈ p :: procd := by
          by_contra hno
          have := (g1 _ hno).1
          unfold readAt at hc2
          by_cases hb : 0 ≤ Int.ofNat p + sp.1 ∧ Int.ofNat p + sp.1 < Int.ofNat P
          · rw [if_pos hb, this] at hc2
            omega
          · rw [if_neg hb] at hc2
            omega
        have hzout : ∀ z, z ∉ p :: procd → st0.2 z = -1 := fun z hz => (g1 z hz).2
        have hzin : ∀ z ∈ p :: procd, 0 ≤ st0.2 z ∧ (st0.2 z).toNat ∈ p :: procd ∧
            s.indexOf ((st0.2 z).toNat) ≤ s.indexOf z := fun z hz => (g2 z hz).2
        obtain ⟨f1, f2, f3, f4⟩ :=
          find_root_inv (P + 1) st0.2 ((Int.ofNat p + sp.1).toNat) hzout hzin hidx
        by_cases hr : (find_root (P + 1) st0.2 ((Int.ofNat p + sp.1).toNat)).2 ≠ p
        · rw [if_pos hr]
          constructor
          · intro z hz
            dsimp only
            have hzr : z ≠ (find_root (P + 1) st0.2 ((Int.ofNat p + sp.1).toNat)).2 :=
              fun h => hz (h ▸ f3)
            rw [upd_ne _ _ hzr, upd_ne _ _ hzr]
            exact ⟨(g1 z hz).1, f1 z hz⟩
          · intro z hz
            dsimp only
            by_cases hzr : z = (find_root (P + 1) st0.2 ((Int.ofNat p + sp.1).toNat)).2
            · rw [hzr, upd_same, upd_same]
              have hple : s.indexOf p ≤
                  s.indexOf ((find_root (P + 1) st0.2 ((Int.ofNat p + sp.1).toNat)).2) := by
                rcases List.mem_cons.1 f3 with h | h
                · exact absurd h hr
                · exact le_of_lt (hfresh _ h)
              exact ⟨⟨Int.ofNat_nonneg _, List.mem_cons_self _ _, hple⟩,
                ⟨Int.ofNat_nonneg _, List.mem_cons_self _ _, hple⟩⟩
            · rw [upd_ne _ _ hzr, upd_ne _ _ hzr]
              exact ⟨(g2 z hz).1, f2 z hz⟩
        · rw [if_neg hr]
          exact ⟨fun z hz => ⟨(g1 z hz).1, f1 z hz⟩,
            fun z hz => ⟨(g2 z hz).1, f2 z hz⟩⟩

lemma sweep_fold_inv {P : Nat} {s : List Nat} (hnd : s.Nodup)
    (mask : Nat → Bool) (neigh : List (Int × List Int)) (shape : List Int) :
    ∀ (rest procd : List Nat) (st : (Nat → Int) × (Nat → Int)),
      s = rest.reverse ++ procd →
      SweepInv s procd st →
      SweepInv s (rest.reverse ++ procd)
        (rest.foldl (build_step P mask neigh shape) st) := by
  intro rest
  induction rest with
  | nil =>
    intro procd st hs hinv
    simpa using hinv
  | cons p rest2 ih =>
    intro procd st hs hinv
    have hs2 : s = rest2.reverse ++ (p :: procd) := by
      rw [hs]
      simp
    have hfresh : ∀ z ∈ procd, s.indexOf p < s.indexOf z := by
      intro z hz
      exact idx_right_gt hnd hs2 hz
    have hstep := build_step_inv (P := P) mask neigh shape hfresh hinv
    have hres := ih (p :: procd) (build_step P mask neigh shape st p) hs2 hstep
    have hlist : (p :: rest2).reverse ++ procd = rest2.reverse ++ (p :: procd) := by
      simp
    rw [hlist]
    exact hres

lemma CanonProp_stable {α : Type _} [LinearOrder α] {s : List Nat}
    {image : Nat → α} {T cur cur2 : Nat → Int} {x : Nat} (hx : x ∈ s)
    (hprop : CanonProp s image T cur x)
    (hagree : ∀ z ∈ s, s.indexOf z ≤ s.indexOf x → cur2 z = cur z) :
    CanonProp s image T cur2 x := by
  obtain ⟨h1, h2, h3, h4, h5, h6⟩ := hprop
  have hcx : cur2 x = cur x := hagree x hx (le_refl _)
  refine ⟨?_, ?_, ?_, ?_, ?_, ?_⟩
  · rw [hcx]; exact h1
  · rw [hcx]; exact h2
  · rw [hcx]; exact h3
  · rw [hcx]; exact h4
  · rw [hcx, hagree _ h2 h3]
    exact h5
  · intro ht
    rw [hcx]
    exact h6 ht

lemma canonize_fold_inv {α : Type _} [LinearOrder α] {s : List Nat}
    {image : Nat → α} {T : Nat → Int} (hnd : s.Nodup)
    (Hasc2 : ∀ a ∈ s, ∀ b ∈ s, s.indexOf a ≤ s.indexOf b → image a ≤ image b)
    (Hsweep : ∀ x ∈ s, 0 ≤ T x ∧ (T x).toNat ∈ s ∧
      s.indexOf ((T x).toNat) ≤ s.indexOf x) :
    ∀ (s2 s1 : List Nat) (cur : Nat → Int), s = s1 ++ s2 →
      (∀ x, x ∉ s1 → cur x = T x) →
      (∀ x ∈ s1, CanonProp s image T cur x) →
      (∀ x, x ∉ s1 ++ s2 → (canonize image cur s2) x = T x) ∧
      (∀ x ∈ s1 ++ s2, CanonProp s image T (canonize image cur s2) x) := by
  intro s2
  induction s2 with
  | nil =>
    intro s1 cur hs huntouched hprops
    constructor
    · intro x hx
      exact huntouched x (fun h => hx (by simpa using h))
    · intro x hx
      exact hprops x (by simpa using hx)
  | cons p s2t ih =>
    intro s1 cur hs huntouched hprops
    have hps : p ∈ s := by
      rw [hs]
      exact List.mem_append_right _ (List.mem_cons_self _ _)
    have hps1 : p ∉ s1 := by
      intro hin
      have h1 := idx_left_lt hnd hs hin
      exact absurd h1 (lt_irrefl _)
    have hidx_s1 : ∀ z ∈ s1, s.indexOf z < s.indexOf p := by
      intro z hz
      exact idx_left_lt hnd hs hz
    have hcurp : cur p = T p := huntouched p hps1
    obtain ⟨hTge, hTm, hTle⟩ := Hsweep p hps
    have hqidx : s.indexOf ((cur p).toNat) ≤ s.indexOf p := by
      rw [hcurp]
      exact hTle
    have hqmem : (cur p).toNat ∈ s := by
      rw [hcurp]
      exact hTm
    have hstep : canonize image cur (p :: s2t) =
        canonize image
          (if image ((cur p).toNat) = image ((cur ((cur p).toNat)).toNat)
            then upd cur p (cur ((cur p).toNat)) else cur) s2t := rfl
    -- the state after processing p
    set cur2 : Nat → Int :=
      (if image ((cur p).toNat) = image ((cur ((cur p).toNat)).toNat)
        then upd cur p (cur ((cur p).toNat)) else cur) with hcur2
    have hcur2_agree : ∀ z, z ≠ p → cur2 z = cur z := by
      intro z hz
      rw [hcur2]
      by_cases hc : image ((cur p).toNat) = image ((cur ((cur p).toNat)).toNat)
      · rw [if_pos hc, upd_ne _ _ hz]
      · rw [if_neg hc]
    have huntouched2 : ∀ x, x ∉ s1 ++ [p] → cur2 x = T x := by
      intro x hx
      have hxp : x ≠ p := by
        intro h
        exact hx (h ▸ List.mem_append_right _ (List.mem_cons_self _ _))
      have hxs1 : x ∉ s1 := fun h => hx (List.mem_append_left _ h)
      rw [hcur2_agree x hxp]
      exact huntouched x hxs1
    have hprops2 : ∀ x ∈ s1 ++ [p], CanonProp s image T cur2 x := by
      intro x hx
      rcases List.mem_append.1 hx with hx1 | hxp
      · -- persistence for already-processed pixels
        have hxs : x ∈ s := by
          rw [hs]
          exact List.mem_append_left _ hx1
        apply CanonProp_stable hxs (hprops x hx1)
        intro z hz hzle
        apply hcur2_agree
        intro h
        rw [h] at hzle
        exact absurd (lt_of_le_of_lt hzle (hidx_s1 x hx1)) (lt_irrefl _)
      · -- the new pixel p
        have hxp2 : x = p := by
          rcases List.mem_cons.1 hxp with h | h
          · exact h
          · exact absurd h (List.not_mem_nil _)
        rw [hxp2]
        clear hxp hx hxp2
        by_cases hqp : (cur p).toNat = p
        · -- a self-parent stays a self-parent
          have hTp : T p = Int.ofNat p := by
            have h1 : Int.ofNat ((T p).toNat) = T p := Int.toNat_of_nonneg hTge
            rw [← h1]
            rw [hcurp] at hqp
            rw [hqp]
          have hcond : image ((cur p).toNat) =
              image ((cur ((cur p).toNat)).toNat) := by
            rw [hqp]
            rw [hqp]
          have hval : cur2 p = Int.ofNat p := by
            rw [hcur2, if_pos hcond, upd_same, hqp, hcurp, hTp]
          refine ⟨?_, ?_, ?_, ?_, ?_, ?_⟩
          · rw [hval]; exact Int.ofNat_nonneg _
          · rw [hval]; exact hps
          · rw [hval]; exact le_refl _
          · rw [hval]; exact le_refl _
          · left
            rw [hval]
            show cur2 p = Int.ofNat p
            exact hval
          · intro _; exact hval
        · -- the parent is an earlier pixel, already canonical
          have hqlt : s.indexOf ((cur p).toNat) < s.indexOf p :=
            lt_of_le_of_ne hqidx (fun h => hqp (idx_inj hqmem hps h))
          have hqs1 : (cur p).toNat ∈ s1 := mem_left_of_idx_lt hnd hs hqmem hqlt
          obtain ⟨q1, q2, q3, q4, q5, q6⟩ := hprops _ hqs1
          have hqimg : image ((cur p).toNat) ≤ image p :=
            Hasc2 _ hqmem _ hps hqidx
          have hznep : (cur ((cur p).toNat)).toNat ≠ p := by
            intro h
            have h2 := lt_of_le_of_lt q3 hqlt
            rw [h] at h2
            exact absurd h2 (lt_irrefl _)
          have hqnep : (cur p).toNat ≠ p := hqp
          by_cases hcond : image ((cur p).toNat) =
              image ((cur ((cur p).toNat)).toNat)
          · -- flat parent: adopt the representative
            have hval : cur2 p = cur ((cur p).toNat) := by
              rw [hcur2, if_pos hcond, upd_same]
            refine ⟨?_, ?_, ?_, ?_, ?_, ?_⟩
            · rw [hval]; exact q1
            · rw [hval]; exact q2
            · rw [hval]; exact le_trans q3 (le_of_lt hqlt)
            · rw [hval]
              calc image ((cur ((cur p).toNat)).toNat)
                  = image ((cur p).toNat) := hcond.symm
                _ ≤ image p := hqimg
            · rw [hval, hcur2_agree _ hznep]
              exact q5
            · intro ht
              exfalso
              apply hqp
              rw [hcurp, ht]
              rfl
          · -- strictly lower parent: keep it
            have hval : cur2 p = cur p := by
              rw [hcur2, if_neg hcond]
            refine ⟨?_, ?_, ?_, ?_, ?_, ?_⟩
            · rw [hval, hcurp]; exact hTge
            · rw [hval]; exact hqmem
            · rw [hval]; exact hqidx
            · rw [hval]; exact hqimg
            · rw [hval, hcur2_agree _ hqnep]
              right
              exact lt_of_le_of_ne q4 (fun h => hcond h.symm)
            · intro ht
              exfalso
              apply hqp
              rw [hcurp, ht]
              rfl
    have hs3 : s = (s1 ++ [p]) ++ s2t := by
      rw [hs]
      simp
    obtain ⟨r1, r2⟩ := ih (s1 ++ [p]) cur2 hs3 huntouched2 hprops2
    rw [hstep]
    constructor
    · intro x hx
      apply r1
      intro h
      apply hx
      have h2 : (s1 ++ [p]) ++ s2t = s1 ++ (p :: s2t) := by simp
      rw [← h2]
      exact h
    · intro x hx
      apply r2
      have h2 : (s1 ++ [p]) ++ s2t = s1 ++ (p :: s2t) := by simp
      rw [h2]
      exact hx

/-- Claim C1 (amended): under the stated preconditions the builder
terminates with a parent array `T` for which the root is its own parent,
every entry is an in-range pixel index, parents never have larger
intensity, and whenever a parent has equal intensity its own parent has
strictly smaller intensity or is a self-parent (the root of its connected
component; with connected, symmetric connectivity that root is
`sorted_indices[0]`).  The original claim additionally requires the
equal-intensity parent to be the canonical representative of `p`'s
flat-zone, which the code does not guarantee (see the counterexample). -/
theorem C1_build_max_tree_canonical {α : Type _} [LinearOrder α] (P : Nat)
    (image : Nat → α) (mask : Nat → Bool) (struct shape : List Int)
    (s : List Nat) (pts : List (List Int)) (T : Nat → Int)
    (Hpos : 0 < P)
    (Hperm : s.Perm (List.range P))
    (Hasc : ∀ j < s.length, ∀ i < j, image (s.getD i 0) ≤ image (s.getD j 0))
    (_Hstable : ∀ j < s.length, ∀ i < j,
      image (s.getD i 0) = image (s.getD j 0) → s.getD i 0 < s.getD j 0)
    (Hconsist : offsets_to_points struct shape = Except.ok pts)
    (_Hmask : ∀ p < P, ∀ k < pts.length,
      _is_valid_coordinate p (pts.getD k []) shape = false → mask p = false)
    (Hbuild : _build_max_tree P image mask struct shape s = Except.ok T) :
    T (s.headD 0) = Int.ofNat (s.headD 0) ∧
    (∀ p < P, 0 ≤ T p ∧ (T p).toNat < P) ∧
    (∀ p < P, image ((T p).toNat) ≤ image p) ∧
    (∀ p < P, image ((T p).toNat) = image p →
      image ((T ((T p).toNat)).toNat) < image p ∨ T ((T p).toNat) = T p) := by
  have hnd : s.Nodup := Hperm.symm.nodup (List.nodup_range P)
  have hTeq : T = _build_max_tree_core P image mask struct shape pts s := by
    unfold _build_max_tree at Hbuild
    rw [Hconsist] at Hbuild
    simp only [Except.map] at Hbuild
    injection Hbuild with h
    exact h.symm
  have hsweep0 : SweepInv s [] (fun _ => (-1 : Int), fun _ => (-1 : Int)) :=
    ⟨fun _ _ => ⟨rfl, rfl⟩, fun z hz => absurd hz (List.not_mem_nil z)⟩
  have hsw := sweep_fold_inv (P := P) hnd mask (struct.zip pts) shape
    s.reverse [] (fun _ => -1, fun _ => -1) (by simp) hsweep0
  rw [List.reverse_reverse, List.append_nil] at hsw
  have HsweepT : ∀ x ∈ s,
      0 ≤ (s.reverse.foldl (build_step P mask (struct.zip pts) shape)
          (fun _ => -1, fun _ => -1)).1 x ∧
      ((s.reverse.foldl (build_step P mask (struct.zip pts) shape)
          (fun _ => -1, fun _ => -1)).1 x).toNat ∈ s ∧
      s.indexOf (((s.reverse.foldl (build_step P mask (struct.zip pts) shape)
          (fun _ => -1, fun _ => -1)).1 x).toNat) ≤ s.indexOf x := by
    intro x hx
    exact (hsw.2 x hx).1
  have Hasc2 : ∀ a ∈ s, ∀ b ∈ s, s.indexOf a ≤ s.indexOf b →
      image a ≤ image b := fun a ha b hb h => asc_le Hasc ha hb h
  obtain ⟨r1, r2⟩ := canonize_fold_inv hnd Hasc2 HsweepT s [] _ (by simp)
    (fun x _ => rfl) (fun x hx => absurd hx (List.not_mem_nil x))
  have hTfin : T = canonize image
      ((s.reverse.foldl (build_step P mask (struct.zip pts) shape)
        (fun _ => -1, fun _ => -1)).1) s := hTeq
  have hprops : ∀ x ∈ s, CanonProp s image
      ((s.reverse.foldl (build_step P mask (struct.zip pts) shape)
        (fun _ => -1, fun _ => -1)).1) T x := by
    intro x hx
    rw [hTfin]
    exact r2 x (by simpa using hx)
  have hmem_of_lt : ∀ p, p < P → p ∈ s := fun p hp => (mem_s_iff Hperm).2 hp
  refine ⟨?_, ?_, ?_, ?_⟩
  · -- the root is its own parent
    have hr0 : s.headD 0 ∈ s := head_mem_of_pos Hperm Hpos
    obtain ⟨w1, w2, w3⟩ := HsweepT _ hr0
    have h0 : s.indexOf (((s.reverse.foldl (build_step P mask (struct.zip pts)
        shape) (fun _ => -1, fun _ => -1)).1 (s.headD 0)).toNat) = 0 := by
      have h1 := idx_headD (s_ne_nil Hperm Hpos)
      omega
    have hfix : ((s.reverse.foldl (build_step P mask (struct.zip pts) shape)
        (fun _ => -1, fun _ => -1)).1 (s.headD 0)).toNat = s.headD 0 := by
      apply idx_inj w2 hr0
      rw [h0, idx_headD (s_ne_nil Hperm Hpos)]
    have hself : (s.reverse.foldl (build_step P mask (struct.zip pts) shape)
        (fun _ => -1, fun _ => -1)).1 (s.headD 0) = Int.ofNat (s.headD 0) := by
      have h2 := Int.toNat_of_nonneg w1
      rw [← h2, hfix]
      rfl
    obtain ⟨-, -, -, -, -, c6⟩ := hprops _ hr0
    exact c6 hself
  · intro p hp
    obtain ⟨c1, c2, -, -, -, -⟩ := hprops p (hmem_of_lt p hp)
    exact ⟨c1, (mem_s_iff Hperm).1 c2⟩
  · intro p hp
    obtain ⟨-, -, -, c4, -, -⟩ := hprops p (hmem_of_lt p hp)
    exact c4
  · intro p hp himg
    obtain ⟨c1, -, -, -, c5, -⟩ := hprops p (hmem_of_lt p hp)
    rcases c5 with h | h
    · right
      rw [h]
      exact Int.toNat_of_nonneg c1
    · left
      rw [← himg]
      exact h

/-- Witness for the amended C1 on a strictly increasing three-pixel
image. -/
theorem C1_witness :
    w1T (w1Sorted.headD 0) = Int.ofNat (w1Sorted.headD 0) ∧
    (∀ p < 3, 0 ≤ w1T p ∧ (w1T p).toNat < 3) ∧
    (∀ p < 3, w1Image ((w1T p).toNat) ≤ w1Image p) ∧
    (∀ p < 3, w1Image ((w1T p).toNat) = w1Image p →
      w1Image ((w1T ((w1T p).toNat)).toNat) < w1Image p ∨
        w1T ((w1T p).toNat) = w1T p) :=
  C1_build_max_tree_canonical 3 w1Image c1_mask [-1, 1] [3] w1Sorted
    [[-1], [1]] w1T (by decide) (by decide) (by decide) (by decide) (by rfl)
    (by decide) (by rfl)

/-- Claim C1 counterexample, two scenarios satisfying all stated
preconditions.  First: on the image `[1, 5, 1]` with symmetric 1-D
connectivity the builder succeeds but pixel `2` receives the parent `0` of
equal intensity even though `0` does not belong to pixel `2`'s flat-zone
(the singleton `{2}`), so the parent is not the canonical representative
of that flat-zone.  Second: on the image `[1, 2]` with the (asymmetric,
but not excluded by the preconditions) offset list `[-1]`, the non-root
pixel `1` ends with `parent 1 = 1` of equal intensity, where neither
`I[parent[parent[1]]] < I[1]` nor `parent 1 = sorted_indices[0]` holds —
forcing the amended form "or parent[p] is a self-parent". -/
theorem C1_counterexample :
    ((0 : Nat) < 3 ∧
    c1_sorted.Perm (List.range 3) ∧
    (∀ j < c1_sorted.length, ∀ i < j,
      c1_image (c1_sorted.getD i 0) ≤ c1_image (c1_sorted.getD j 0)) ∧
    (∀ j < c1_sorted.length, ∀ i < j,
      c1_image (c1_sorted.getD i 0) = c1_image (c1_sorted.getD j 0) →
        c1_sorted.getD i 0 < c1_sorted.getD j 0) ∧
    offsets_to_points [-1, 1] [3] = Except.ok [[-1], [1]] ∧
    (∀ p < 3, ∀ k < 2,
      _is_valid_coordinate p ([[-1], [1]].getD k []) [3] = false →
        c1_mask p = false) ∧
    _build_max_tree 3 c1_image c1_mask [-1, 1] [3] c1_sorted =
      Except.ok c1_parent ∧
    c1_image ((c1_parent 2).toNat) = c1_image 2 ∧
    c1_parent 2 = 0 ∧
    in_flat_zone 3 c1_image [-1, 1] [3] 2 ((c1_parent 2).toNat) = false) ∧
    ((0 : Nat) < 2 ∧
    wSorted.Perm (List.range 2) ∧
    (∀ j < wSorted.length, ∀ i < j,
      wImage (wSorted.getD i 0) ≤ wImage (wSorted.getD j 0)) ∧
    (∀ j < wSorted.length, ∀ i < j,
      wImage (wSorted.getD i 0) = wImage (wSorted.getD j 0) →
        wSorted.getD i 0 < wSorted.getD j 0) ∧
    offsets_to_points [-1] [2] = Except.ok [[-1]] ∧
    (∀ p < 2, ∀ k < 1,
      _is_valid_coordinate p ([[-1]].getD k []) [2] = false →
        c1b_mask p = false) ∧
    _build_max_tree 2 wImage c1b_mask [-1] [2] wSorted =
      Except.ok c1b_parent ∧
    (1 : Nat) ≠ wSorted.headD 0 ∧
    wImage ((c1b_parent 1).toNat) = wImage 1 ∧
    c1b_parent 1 = 1 ∧
    c1b_parent (wSorted.headD 0) = Int.ofNat (wSorted.headD 0) ∧
    ¬ wImage ((c1b_parent ((c1b_parent 1).toNat)).toNat) < wImage 1) :=
  ⟨⟨by decide, by decide, by decide, by decide, by rfl, by decide, by rfl,
    by decide, by decide, by decide⟩,
   ⟨by decide, by decide, by decide, by decide, by rfl, by decide, by rfl,
    by decide, by decide, by decide, by decide, by decide⟩⟩

end MaxTree
